import Mathlib

/-!
# Verification of the map-the-net crawler against its specification

This file gives a shallow embedding, in Lean, of the queue, URL, robots.txt
and link-collection logic of the crawler (sources: `database.py`,
`domain_collector.py`, `parallel_collector.py`), and proves or refutes the
specification's claims about them.

Strings are modelled as `List Char`; Python string scanning functions
(`urllib.parse.urlparse`, `str.rstrip`, `str.startswith`, ...) are embedded
as structurally recursive functions on character lists.  Database tables are
modelled as lists of rows; each SQL statement of the source becomes a pure
state transformer on such lists, and a statement executed inside one
transaction becomes one atomic Lean function.  Fallible read-only queries
take an `Except` value describing the database response, mirroring the
`try/except` structure of the Python code.
-/

namespace Crawler

/-! ## Character-level helpers (ASCII case folding, as Python applies to URLs) -/

/-- Characters that may appear in a URL scheme, per CPython `urlsplit`
(`scheme_chars = letters, digits, and '+-.'`). -/
def isSchemeChar (c : Char) : Bool :=
  c.isAlpha || c.isDigit || c == '+' || c == '-' || c == '.'

/-! ## Embedding of `urllib.parse.urlparse` (the fields the crawler reads)

CPython `urlsplit`: the text before the first `':'` is a scheme when it is
nonempty, starts with an ASCII letter and consists of scheme characters; it
is returned lowercased.  Then, when the remainder starts with `"//"`, the
network location runs up to the first `'/'`, `'?'` or `'#'`.  The fragment
is everything after the first `'#'`; the query everything after the first
`'?'` of what precedes the fragment; the path is what is left. -/

/-- Split off the (lowercased) scheme: returns `(scheme, rest)`, with
`scheme = []` when the URL has no valid scheme prefix. -/
def splitScheme (s : List Char) : List Char × List Char :=
  let pre := s.takeWhile (· ≠ ':')
  if pre.length < s.length ∧ pre ≠ [] ∧ (pre.headD ' ').isAlpha ∧ pre.all isSchemeChar then
    (pre.map Char.toLower, s.drop (pre.length + 1))
  else
    ([], s)

/-- A character that terminates the network-location part. -/
def isNetlocEnd (c : Char) : Bool :=
  c == '/' || c == '?' || c == '#'

/-- Split off the network location when the input starts with `"//"`
(CPython `_splitnetloc`): returns `(netloc, rest)`. -/
def splitNetloc : List Char → List Char × List Char
  | '/' :: '/' :: t =>
      (t.takeWhile (fun c => !isNetlocEnd c), t.dropWhile (fun c => !isNetlocEnd c))
  | s => ([], s)

/-- The path of the post-netloc remainder: drop the fragment (everything
from the first `'#'`), then the query (everything from the first `'?'`). -/
def pathPart (s : List Char) : List Char :=
  (s.takeWhile (· ≠ '#')).takeWhile (· ≠ '?')

/-- The scheme `urlparse` reports for a URL. -/
def schemeOf (s : List Char) : List Char :=
  (splitScheme s).1

/-- The netloc `urlparse` reports for a URL. -/
def netlocOf (s : List Char) : List Char :=
  (splitNetloc (splitScheme s).2).1

/-- Python `str.rstrip('/')`: remove every trailing `'/'`. -/
def rstripSlashes (s : List Char) : List Char :=
  (s.reverse.dropWhile (· = '/')).reverse

/-! ## `DomainCollector._clean_url_for_queue` (domain_collector.py:180-196) -/

/-- Shallow embedding of `_clean_url_for_queue`: rebuild
`f"{scheme}://{netloc}{path}"` from the `urlparse` fields (dropping query
and fragment) and then strip the trailing `'/'` (all of them — `rstrip`)
whenever the result ends in `'/'` and is longer than one character. -/
def cleanUrlCore (url : List Char) : List Char :=
  let sr := splitScheme url
  let nr := splitNetloc sr.2
  let path := pathPart nr.2
  let clean := sr.1 ++ ':' :: '/' :: '/' :: (nr.1 ++ path)
  if clean.getLast? = some '/' ∧ 1 < clean.length then rstripSlashes clean else clean

/-- `_clean_url_for_queue` on Lean `String`s. -/
def cleanUrlForQueue (url : String) : String :=
  ⟨cleanUrlCore url.data⟩

/-- Python `"www."`-prefix stripping as the collector applies it to hosts. -/
def stripWww (h : List Char) : List Char :=
  if ['w', 'w', 'w', '.'].isPrefixOf h then h.drop 4 else h

/-- The host the collector derives from a URL for redirect comparison:
`urlparse(u).netloc.lower()` with a leading `"www."` removed
(domain_collector.py:1032-1037). -/
def hostOf (u : List Char) : List Char :=
  stripWww ((netlocOf u).map Char.toLower)

/-- The canonicalizer as the SPECIFICATION (not the source) describes it:
scheme plus lowercased host with a leading `www.` removed plus the path,
query and fragment dropped, trailing `'/'` stripped except when the `'/'`
is the entire path.  Used only to compare the specification's words with
`cleanUrlCore`. -/
def specCleanUrl (url : List Char) : List Char :=
  let sr := splitScheme url
  let nr := splitNetloc sr.2
  let path := pathPart nr.2
  let host := stripWww (nr.1.map Char.toLower)
  let path' := if path = ['/'] then path else rstripSlashes path
  sr.1 ++ ':' :: '/' :: '/' :: (host ++ path')

/-- Build a URL from components, for stating what the canonicalizer does on
well-formed inputs. -/
def assembleUrl (scheme host path query frag : List Char) : List Char :=
  scheme ++ ':' :: '/' :: '/' :: (host ++ path ++ '?' :: query ++ '#' :: frag)

/-! ## Robots policy (domain_collector.py:1382-1471) -/

/-- A robots.txt directive kind kept by `_parse_robots_txt`. -/
inductive RuleType where
  | allow
  | disallow
deriving DecidableEq, Repr

/-- `DomainCollector._path_matches`: an empty value matches everything;
otherwise a value is given a leading `'/'` when it lacks one and then
prefix-matched against the path. -/
def pathMatches (path ruleValue : List Char) : Bool :=
  if ruleValue = [] then true
  else
    let rv := if ruleValue.headD ' ' = '/' then ruleValue else '/' :: ruleValue
    rv.isPrefixOf path

/-- The value the scan loop of `_find_robots_decision` works with: an empty
value (for either directive) is replaced by `"/"`. -/
def effValue (v : List Char) : List Char :=
  if v = [] then ['/'] else v

/-- The scan loop of `_find_robots_decision`: walk the rules keeping the
type of the last rule that matched with a value strictly longer than the
running maximum (`max_len` starts at `-1`). -/
def robotsScan (path : List Char) :
    List (RuleType × List Char) → Option RuleType → Int → Option RuleType
  | [], m, _ => m
  | (t, v) :: rest, m, maxLen =>
      let v' := effValue v
      if pathMatches path v' = true ∧ maxLen < (v'.length : Int) then
        robotsScan path rest (some t) v'.length
      else
        robotsScan path rest m maxLen

/-- Normalize a request path as `_find_robots_decision` does: prepend `'/'`
when the path does not already start with it. -/
def normPath (path : List Char) : List Char :=
  if path.headD ' ' = '/' then path else '/' :: path

/-- `DomainCollector._find_robots_decision`: `True` means allowed. -/
def findRobotsDecision (path : List Char) (rules : List (RuleType × List Char)) : Bool :=
  match robotsScan (normPath path) rules none (-1) with
  | none => true
  | some .allow => true
  | some .disallow => false

/-- The rule set `_check_robots_txt` applies for a user agent: the rules
listed under exactly that agent followed by the rules listed under `*`. -/
def applicableRules (ua : List Char)
    (sections : List (List Char × List (RuleType × List Char))) :
    List (RuleType × List Char) :=
  ((sections.filter (fun s => s.1 = ua)).map (·.2)).flatten ++
    ((sections.filter (fun s => s.1 = ['*'])).map (·.2)).flatten

/-- The specification's brute-force reference decision: among all rules
whose value prefix-matches the path (an empty **disallow** value meaning
`"/"`), the longest matching value wins and `allow` wins ties; no match
means allowed.  Written from the spec's words, for comparison with
`findRobotsDecision`. -/
def specRobotsDecision (path : List Char) (rules : List (RuleType × List Char)) : Bool :=
  let val : RuleType × List Char → List Char := fun r =>
    if r.2 = [] ∧ r.1 = .disallow then ['/'] else r.2
  let ms := rules.filter (fun r => (val r).isPrefixOf path)
  if ms = [] then true
  else
    let maxLen := (ms.map (fun r => (val r).length)).foldr max 0
    ms.any (fun r => r.1 = .allow ∧ (val r).length = maxLen)

/-- Brute-force reference with the tie-break the code actually implements:
among the rules matching the normalized path (under `pathMatches`, with
empty values meaning `"/"`), the winner is the **first** rule whose
effective value attains the maximal length; no match means allowed. -/
def bruteRobotsDecision (path : List Char) (rules : List (RuleType × List Char)) : Bool :=
  let p := normPath path
  let ms := rules.filter (fun r => pathMatches p (effValue r.2))
  match ms with
  | [] => true
  | _ =>
    let maxLen := (ms.map (fun r => (effValue r.2).length)).foldr max 0
    match ms.find? (fun r => (effValue r.2).length = maxLen) with
    | some (.allow, _) => true
    | _ => false

/-- The reference winner among an already-filtered list of matching rules,
relative to a starting threshold `k` and a default `m`: the first rule
whose effective-value length attains the maximum (the maximum taken with
`k` as the base).  `robotsScan` is proved equal to `chooseBest` over the
rules that match with length above the threshold. -/
def chooseBest (k : Int) (m : Option RuleType)
    (ms : List (RuleType × List Char)) : Option RuleType :=
  match ms with
  | [] => m
  | _ :: _ =>
      match ms.find? (fun r => ((effValue r.2).length : Int) =
          (ms.map (fun r => ((effValue r.2).length : Int))).foldr max k) with
      | some r => some r.1
      | none => m

/-! ## The discovery queue (database.py)

The `discovery_queue` table is modelled as a list of rows.  The schema
(database.py:102-121) declares `id` as the primary key, `url` as unique,
and `status` as an enum defaulting to `'pending'`. -/

/-- `discovery_queue.status` enum. -/
inductive QStatus where
  | pending
  | processing
  | completed
  | failed
  | skipped
deriving DecidableEq, Repr

/-- One row of `discovery_queue`. -/
structure QEntry where
  id : Nat
  url : String
  domainName : String
  sourceDomainId : Option Nat
  depth : Int
  priority : Int
  discoveredAt : Nat
  processedAt : Option Nat
  errorMessage : Option String
  status : QStatus
deriving DecidableEq, Repr

/-- `ORDER BY priority DESC, discovered_at ASC` (database.py:329-333). -/
def leaseLE (a b : QEntry) : Bool :=
  b.priority < a.priority || (a.priority == b.priority && a.discoveredAt ≤ b.discoveredAt)

/-- Insert into a list sorted by `leaseLE` (a stable sort realizing the SQL
`ORDER BY`). -/
def insertByOrder (x : QEntry) : List QEntry → List QEntry
  | [] => [x]
  | y :: ys => if leaseLE x y then x :: y :: ys else y :: insertByOrder x ys

/-- Stable insertion sort by `leaseLE`. -/
def sortByOrder : List QEntry → List QEntry
  | [] => []
  | x :: xs => insertByOrder x (sortByOrder xs)

/-- `DatabaseManager.get_next_from_queue` (database.py:304-379), the lease
transaction: select up to `limit` rows with `status = 'pending'` ordered by
priority then discovery time (`SELECT ... FOR UPDATE`), and in the same
transaction set each selected row to `'processing'` with
`processed_at = CURRENT_TIMESTAMP`.  The `FOR UPDATE` row locks serialize
concurrent callers, so the whole transaction is one atomic step here.
Returns the selected rows and the updated table. -/
def get_next_from_queue (limit : Nat) (now : Nat) (q : List QEntry) :
    List QEntry × List QEntry :=
  let sel := (sortByOrder (q.filter (fun e => e.status = QStatus.pending))).take limit
  let ids := sel.map (·.id)
  (sel, q.map (fun e =>
    if ids.contains e.id then
      { e with status := QStatus.processing, processedAt := some now }
    else e))

/-- `DatabaseManager.mark_queue_item_completed` (database.py:381-401):
`UPDATE discovery_queue SET status = %s, processed_at = CURRENT_TIMESTAMP,
error_message = %s WHERE id = %s` — the `WHERE` clause tests only the id. -/
def mark_queue_item_completed (queueId : Nat) (success : Bool)
    (errorMessage : Option String) (now : Nat) (q : List QEntry) : List QEntry :=
  q.map (fun e =>
    if e.id = queueId then
      { e with status := if success then QStatus.completed else QStatus.failed,
               processedAt := some now, errorMessage := errorMessage }
    else e)

/-- `DatabaseManager.mark_queue_item_skipped` (database.py:403-422). -/
def mark_queue_item_skipped (queueId : Nat) (reason : Option String)
    (now : Nat) (q : List QEntry) : List QEntry :=
  q.map (fun e =>
    if e.id = queueId then
      { e with status := QStatus.skipped, processedAt := some now,
               errorMessage := reason }
    else e)

/-- `DatabaseManager.mark_queue_item_interrupted` (database.py:424-443). -/
def mark_queue_item_interrupted (queueId : Nat) (reason : Option String)
    (q : List QEntry) : List QEntry :=
  q.map (fun e =>
    if e.id = queueId then
      { e with status := QStatus.pending, processedAt := none,
               errorMessage := reason }
    else e)

/-- `DatabaseManager.add_to_discovery_queue` (database.py:280-302):
`INSERT ... ON DUPLICATE KEY UPDATE priority = GREATEST(existing, new),
depth = LEAST(existing, new)`; the unique key is `url`; the row's other
columns (in particular `status`) are not touched on conflict, and a fresh
row gets the schema's `status` default `'pending'`. -/
def add_to_discovery_queue (url : String) (domainName : String)
    (sourceDomainId : Option Nat) (depth : Int) (priority : Int)
    (newId : Nat) (now : Nat) (q : List QEntry) : List QEntry :=
  if q.any (fun e => e.url = url) then
    q.map (fun e =>
      if e.url = url then
        { e with priority := max e.priority priority, depth := min e.depth depth }
      else e)
  else
    q ++ [{ id := newId, url := url, domainName := domainName,
            sourceDomainId := sourceDomainId, depth := depth,
            priority := priority, discoveredAt := now, processedAt := none,
            errorMessage := none, status := QStatus.pending }]

/-! ## Fallible read-only queries (database.py:445-577)

Each of these Python methods runs one query inside `try/except Error` and
returns a neutral default from the `except` arm.  The database round-trip
is modelled as an `Except` value: `.ok rows` is the table the query saw,
`.error e` a `mysql.connector.Error` raised during the query. -/

/-- One row of `url_processing_history` (schema: database.py:141-153). -/
structure HistoryRow where
  url : String
  domainName : String
  status : String
  linksFound : Nat
deriving DecidableEq, Repr

/-- `DatabaseManager.is_url_in_queue` (database.py:445-460).  Note the
Python truthiness test `if exclude_id:`: an `exclude_id` of `None` — or
`0` — means no exclusion. -/
def is_url_in_queue (url : String) (excludeId : Option Nat)
    (db : Except String (List QEntry)) : Bool :=
  match db with
  | .error _ => false
  | .ok rows =>
      let active : QEntry → Bool := fun e =>
        e.url == url && (e.status == QStatus.pending || e.status == QStatus.processing)
      match excludeId with
      | some i => if i ≠ 0 then rows.any (fun e => active e && e.id ≠ i)
                  else rows.any active
      | none => rows.any active

/-- `DatabaseManager.is_url_already_processed` (database.py:462-474). -/
def is_url_already_processed (url : String)
    (db : Except String (List HistoryRow)) : Bool :=
  match db with
  | .error _ => false
  | .ok rows => rows.any (fun h => h.url == url)

/-- `DatabaseManager.get_domain_processing_count` (database.py:501-513). -/
def get_domain_processing_count (domainName : String)
    (db : Except String (List HistoryRow)) : Nat :=
  match db with
  | .error _ => 0
  | .ok rows => (rows.filter (fun h => h.domainName == domainName)).length

/-- `DatabaseManager.get_queue_stats` (database.py:550-577):
`SELECT status, COUNT(*) ... GROUP BY status` builds a map from each
status present in the table to its row count; a database error yields the
empty map. -/
def get_queue_stats (db : Except String (List QEntry)) : List (QStatus × Nat) :=
  match db with
  | .error _ => []
  | .ok rows =>
      ([QStatus.pending, QStatus.processing, QStatus.completed,
        QStatus.failed, QStatus.skipped].map
          (fun s => (s, (rows.filter (fun e => e.status = s)).length))).filter
        (fun p => p.2 ≠ 0)

/-! ## Link collection and fan-out (domain_collector.py:971-1201) -/

/-- A link that survived filtering and categorization: its raw href, its
text, and the target host derived from the href. -/
structure Link where
  href : String
  linkText : String
  domain : String
deriving DecidableEq, Repr

/-- The internal-link loop of `_collect_relationships_and_discover`
(domain_collector.py:977-1090): stop once `internal_links_added` reaches
the internal budget; skip an href whose canonical URL was already seen
(the canonical URL is remembered even when the link is then dropped by the
per-domain cap); skip a target whose processed-URL count has reached
`max_urls_per_domain`; otherwise keep the link.  Returns the kept links in
order. -/
def internalKept (budget cap : Nat) (domainCount : String → Nat) :
    List Link → List String → Nat → List Link
  | [], _, _ => []
  | l :: ls, seen, added =>
      if budget ≤ added then []
      else
        let c := cleanUrlForQueue l.href
        if seen.contains c then internalKept budget cap domainCount ls seen added
        else if cap ≤ domainCount l.domain then
          internalKept budget cap domainCount ls (c :: seen) added
        else
          l :: internalKept budget cap domainCount ls (c :: seen) (added + 1)

/-- The external-link loop (domain_collector.py:1100-1202): the same shape,
but deduplicated by target host rather than canonical URL. -/
def externalKept (budget cap : Nat) (domainCount : String → Nat) :
    List Link → List String → Nat → List Link
  | [], _, _ => []
  | l :: ls, seen, added =>
      if budget ≤ added then []
      else
        if seen.contains l.domain then externalKept budget cap domainCount ls seen added
        else if cap ≤ domainCount l.domain then
          externalKept budget cap domainCount ls (l.domain :: seen) added
        else
          l :: externalKept budget cap domainCount ls (l.domain :: seen) (added + 1)

/-- The budget split (domain_collector.py:972-975):
`max_internal_links = max(1, max_links // 4)` and
`max_external_links = max_links - max_internal_links`.  In Python the
external budget can be negative (for `max_links = 0` it is `-1`), in which
case the loop guard `added >= budget` is immediately true; natural-number
truncation yields the same empty selection. -/
def internalBudget (maxLinks : Nat) : Nat := Nat.max 1 (maxLinks / 4)

/-- External budget, see `internalBudget`. -/
def externalBudget (maxLinks : Nat) : Nat := maxLinks - internalBudget maxLinks

/-- All links a page processing keeps and enqueues. -/
def keptLinks (maxLinks cap : Nat) (domainCount : String → Nat)
    (internal external : List Link) : List Link :=
  internalKept (internalBudget maxLinks) cap domainCount internal [] 0 ++
    externalKept (externalBudget maxLinks) cap domainCount external [] 0

/-! ## Relationship classification for one kept link
(domain_collector.py:1013-1080 internal branch, 1131-1193 external branch;
both branches are identical in the parts modelled here) -/

/-- One `relationships` row as appended by the collector. -/
structure Rel where
  source : String
  target : String
  typ : String
  linkText : String
  linkUrl : String
deriving DecidableEq, Repr

/-- Python `href.startswith('#')`. -/
def startsWithHash (href : List Char) : Bool :=
  href.headD ' ' == '#'

/-- Python `href.lower().startswith('mailto:')`. -/
def startsWithMailto (href : List Char) : Bool :=
  ['m', 'a', 'i', 'l', 't', 'o', ':'].isPrefixOf (href.map Char.toLower)

/-- The relationship rows recorded for one kept link, in the order the code
appends them.  `subdomainCond` is the `tldextract`-based test of
domain_collector.py:1018-1023 (same registrable domain and suffix, source
has no subdomain, target does), supplied as an input because `tldextract`
consults the external public-suffix list.  `probe` is the result of the
HEAD request with redirects followed: `none` when the request raised, and
otherwise `some (status, finalUrl)`.  When the redirect condition holds the
code sets `rel_type = 'redirect'`, appends the redirect edge to the final
host, and then appends the nominal edge — with the mutated `rel_type`. -/
def relationshipsForLink (domainName targetDomain : String)
    (href linkText : String) (subdomainCond : Bool)
    (probe : Option (Nat × String)) : List Rel :=
  if subdomainCond then
    [⟨domainName, targetDomain, "subdomain", linkText, href⟩]
  else if startsWithHash href.data || startsWithMailto href.data then
    [⟨domainName, targetDomain, "link", linkText, href⟩]
  else
    match probe with
    | none => [⟨domainName, targetDomain, "link", linkText, href⟩]
    | some (status, finalUrl) =>
        let finalDomain : String := ⟨hostOf finalUrl.data⟩
        let origDomain : String := ⟨hostOf href.data⟩
        let protocolOnly : Bool :=
          finalDomain == origDomain &&
            !(schemeOf href.data == schemeOf finalUrl.data)
        if 300 ≤ status ∧ status < 400 ∧ finalDomain ≠ "" ∧
            finalDomain ≠ targetDomain ∧ protocolOnly = false then
          [⟨domainName, finalDomain, "redirect", linkText, href⟩,
           ⟨domainName, targetDomain, "redirect", linkText, href⟩]
        else
          [⟨domainName, targetDomain, "link", linkText, href⟩]

/-! ## Per-item outcomes in the two queue drivers -/

/-- The terminal disposition `process_queue` gives one leased item. -/
inductive ItemOutcome where
  | skipped (reason : String)
  | completedOk
  | failedErr (err : String)
deriving DecidableEq, Repr

/-- `collect_domain_data` as seen by `process_queue`: when robots.txt
denies the root path, `_collect_web_data` returns `{}`
(domain_collector.py:521-524) and `_collect_relationships_and_discover`
returns empty lists (domain_collector.py:886-889) — neither raises, so a
robots denial returns normally.  `rest` stands for the outcome of the
remaining work (fetch, parse, database writes), which can raise. -/
def collectDomainData (robotsAllowed : Bool) (rest : Except String Unit) :
    Except String Unit :=
  if robotsAllowed then rest else .ok ()

/-- The per-item decision chain of `DomainCollector.process_queue`
(domain_collector.py:1290-1327): skip when `depth >= max_depth`, skip when
the URL is actively queued elsewhere, skip when the domain's processed-URL
count reached `max_urls_per_domain`; otherwise run `collect_domain_data`
and mark the item completed on return or failed on an exception. -/
def processQueueItemOutcome (maxDepth : Int) (maxUrlsPerDomain : Nat)
    (depth : Int) (urlInQueueElsewhere : Bool) (domainCount : Nat)
    (collect : Except String Unit) : ItemOutcome :=
  if maxDepth ≤ depth then ItemOutcome.skipped "Max depth reached"
  else if urlInQueueElsewhere then ItemOutcome.skipped "Already in queue"
  else if maxUrlsPerDomain ≤ domainCount then
    ItemOutcome.skipped "Domain processing limit reached"
  else
    match collect with
    | .ok _ => ItemOutcome.completedOk
    | .error e => ItemOutcome.failedErr e

/-- Apply the outcome of `process_queue` to the queue row
(domain_collector.py:1300, 1306, 1313, 1320, 1327). -/
def applyOutcome (queueId : Nat) (o : ItemOutcome) (now : Nat)
    (q : List QEntry) : List QEntry :=
  match o with
  | ItemOutcome.skipped r => mark_queue_item_skipped queueId (some r) now q
  | ItemOutcome.completedOk => mark_queue_item_completed queueId true none now q
  | ItemOutcome.failedErr e => mark_queue_item_completed queueId false (some e) now q

/-- The depth gate of `ParallelQueueProcessor.process_batch`
(parallel_collector.py:75-78): when `depth > max_depth` the loop just
`continue`s — the leased row receives **no** status update, so it stays
`'processing'`.  Otherwise the item completes or fails as in
`process_queue`.  Returns the updated queue. -/
def processBatchItem (maxDepth : Int) (item : QEntry)
    (collect : Except String Unit) (now : Nat) (q : List QEntry) : List QEntry :=
  if maxDepth < item.depth then q
  else
    match collect with
    | .ok _ => mark_queue_item_completed item.id true none now q
    | .error e => mark_queue_item_completed item.id false (some e) now q

/-- A serialized history of lease transactions: each step `(limit, now)` is
one `get_next_from_queue` call (the `FOR UPDATE` transaction makes every
call atomic, so any concurrent execution is equivalent to some such
serialization).  Returns the list of id sets handed out, call by call. -/
def leaseSelections : List (Nat × Nat) → List QEntry → List (List Nat)
  | [], _ => []
  | (limit, now) :: steps, q =>
      let r := get_next_from_queue limit now q
      (r.1.map (·.id)) :: leaseSelections steps r.2

/-! ## Helper lemmas: ASCII case folding -/

theorem toNat_ofNat_valid {n : Nat} (h : n.isValidChar) : (Char.ofNat n).toNat = n := by
  rw [Char.ofNat, dif_pos h]; rfl

theorem uint32_le_iff {a b : UInt32} : (a ≤ b) ↔ a.toNat ≤ b.toNat := by
  rw [UInt32.le_def, BitVec.le_def]; rfl

theorem isUpper_iff {c : Char} : c.isUpper = true ↔ (65 ≤ c.toNat ∧ c.toNat ≤ 90) := by
  have h65 : (65 : UInt32).toNat = 65 := rfl
  have h90 : (90 : UInt32).toNat = 90 := rfl
  simp only [Char.isUpper, Bool.and_eq_true, ge_iff_le, decide_eq_true_eq, uint32_le_iff,
    h65, h90]
  rfl

theorem isLower_iff {c : Char} : c.isLower = true ↔ (97 ≤ c.toNat ∧ c.toNat ≤ 122) := by
  have h97 : (97 : UInt32).toNat = 97 := rfl
  have h122 : (122 : UInt32).toNat = 122 := rfl
  simp only [Char.isLower, Bool.and_eq_true, ge_iff_le, decide_eq_true_eq, uint32_le_iff,
    h97, h122]
  rfl

theorem isDigit_iff {c : Char} : c.isDigit = true ↔ (48 ≤ c.toNat ∧ c.toNat ≤ 57) := by
  have h48 : (48 : UInt32).toNat = 48 := rfl
  have h57 : (57 : UInt32).toNat = 57 := rfl
  simp only [Char.isDigit, Bool.and_eq_true, ge_iff_le, decide_eq_true_eq, uint32_le_iff,
    h48, h57]
  rfl

theorem toLower_def (c : Char) :
    Char.toLower c = if 65 ≤ c.toNat ∧ c.toNat ≤ 90 then Char.ofNat (c.toNat + 32) else c :=
  rfl

theorem toLower_toNat (c : Char) :
    (Char.toLower c).toNat =
      if 65 ≤ c.toNat ∧ c.toNat ≤ 90 then c.toNat + 32 else c.toNat := by
  rw [toLower_def]
  by_cases h : 65 ≤ c.toNat ∧ c.toNat ≤ 90
  · rw [if_pos h, if_pos h]
    exact @toNat_ofNat_valid (c.toNat + 32) (Or.inl (by omega))
  · rw [if_neg h, if_neg h]

theorem toLower_eq_self {c : Char} (h : ¬(65 ≤ c.toNat ∧ c.toNat ≤ 90)) :
    Char.toLower c = c := by
  rw [toLower_def, if_neg h]

theorem toLower_isAlpha {c : Char} (h : c.isAlpha = true) : (Char.toLower c).isAlpha = true := by
  simp only [Char.isAlpha, Bool.or_eq_true] at h ⊢
  rcases h with h | h
  · right
    rw [isLower_iff]
    rw [isUpper_iff] at h
    rw [toLower_toNat, if_pos h]
    omega
  · rw [isLower_iff] at h
    rw [toLower_eq_self (by omega)]
    right
    rw [isLower_iff]
    exact h

theorem toLower_isSchemeChar {c : Char} (h : isSchemeChar c = true) :
    isSchemeChar (Char.toLower c) = true := by
  simp only [isSchemeChar, Bool.or_eq_true, beq_iff_eq] at h ⊢
  rcases h with ((((h | h) | h) | h) | h)
  · left; left; left; left; exact toLower_isAlpha h
  · rw [isDigit_iff] at h
    rw [toLower_eq_self (by omega)]
    left; left; left; right
    rw [isDigit_iff]; exact h
  · subst h; left; left; right; decide
  · subst h; left; right; decide
  · subst h; right; decide

theorem toLower_toLower (c : Char) : Char.toLower (Char.toLower c) = Char.toLower c := by
  by_cases h : 65 ≤ c.toNat ∧ c.toNat ≤ 90
  · apply toLower_eq_self
    rw [toLower_toNat, if_pos h]
    omega
  · rw [toLower_eq_self h]
    exact toLower_eq_self h

theorem isSchemeChar_ne_colon {c : Char} (h : isSchemeChar c = true) : c ≠ ':' := by
  intro hc
  subst hc
  simp [isSchemeChar, Char.isAlpha, Char.isUpper, Char.isLower, Char.isDigit] at h

/-! ## Helper lemmas: list scanning -/

theorem takeWhile_all {p : α → Bool} {l : List α} (h : ∀ a ∈ l, p a = true) :
    l.takeWhile p = l := by
  induction l with
  | nil => rfl
  | cons a t ih =>
      rw [List.takeWhile_cons, if_pos (h a (List.mem_cons_self a t))]
      rw [ih (fun x hx => h x (List.mem_cons_of_mem a hx))]

theorem dropWhile_all {p : α → Bool} {l : List α} (h : ∀ a ∈ l, p a = true) :
    l.dropWhile p = [] := by
  induction l with
  | nil => rfl
  | cons a t ih =>
      rw [List.dropWhile_cons, if_pos (h a (List.mem_cons_self a t))]
      exact ih (fun x hx => h x (List.mem_cons_of_mem a hx))

theorem mem_dropWhile {p : α → Bool} {l : List α} {x : α} (h : x ∈ l.dropWhile p) :
    x ∈ l :=
  (List.dropWhile_sublist p).mem h

theorem mem_takeWhile {p : α → Bool} {l : List α} {x : α} (h : x ∈ l.takeWhile p) :
    x ∈ l :=
  (List.takeWhile_sublist p).mem h

theorem head_dropWhile_false {p : α → Bool} :
    ∀ {l : List α} {a : α}, (l.dropWhile p).head? = some a → p a = false := by
  intro l
  induction l with
  | nil => intro a h; simp at h
  | cons x t ih =>
      intro a h
      rw [List.dropWhile_cons] at h
      by_cases hp : p x = true
      · rw [if_pos hp] at h
        exact ih h
      · rw [if_neg hp] at h
        simp at h
        rw [← h]
        exact Bool.eq_false_iff.mpr hp

/-! ## Helper lemmas: the scheme splitter -/

theorem splitScheme_of_wf {pre rest : List Char} (h1 : pre ≠ [])
    (h2 : (pre.headD ' ').isAlpha = true) (h3 : pre.all isSchemeChar = true) :
    splitScheme (pre ++ ':' :: rest) = (pre.map Char.toLower, rest) := by
  have hnc : ∀ c ∈ pre, (fun c => decide (c ≠ ':')) c = true := by
    intro c hc
    simp only [decide_eq_true_eq]
    exact isSchemeChar_ne_colon (List.all_eq_true.mp h3 c hc)
  have htw : (pre ++ ':' :: rest).takeWhile (· ≠ ':') = pre := by
    rw [List.takeWhile_append_of_pos hnc, List.takeWhile_cons]
    simp
  have hd : List.drop (pre.length + 1) (pre ++ ':' :: rest) = rest := by
    simp
  unfold splitScheme
  simp only [htw]
  rw [if_pos]
  · rw [hd]
  · refine ⟨?_, h1, h2, h3⟩
    simp [List.length_append]

theorem splitScheme_no_colon {s : List Char} (h : ∀ c ∈ s, c ≠ ':') :
    splitScheme s = ([], s) := by
  have htw : s.takeWhile (· ≠ ':') = s :=
    takeWhile_all (fun a ha => by simpa using h a ha)
  unfold splitScheme
  simp only [htw]
  rw [if_neg]
  intro hcon
  exact absurd hcon.1 (by omega)

theorem splitScheme_fst_spec {u : List Char} (h : (splitScheme u).1 ≠ []) :
    ((splitScheme u).1.headD ' ').isAlpha = true ∧
      (splitScheme u).1.all isSchemeChar = true ∧
      (splitScheme u).1.map Char.toLower = (splitScheme u).1 := by
  unfold splitScheme at h ⊢
  by_cases hc : (u.takeWhile (· ≠ ':')).length < u.length ∧ u.takeWhile (· ≠ ':') ≠ [] ∧
      ((u.takeWhile (· ≠ ':')).headD ' ').isAlpha = true ∧
      (u.takeWhile (· ≠ ':')).all isSchemeChar = true
  · rw [if_pos hc] at h ⊢
    obtain ⟨-, hne, hhead, hall⟩ := hc
    obtain ⟨a, t, hat⟩ := List.exists_cons_of_ne_nil hne
    refine ⟨?_, ?_, ?_⟩
    · rw [hat]
      simp only [List.map_cons, List.headD_cons]
      rw [hat] at hhead
      simp only [List.headD_cons] at hhead
      exact toLower_isAlpha hhead
    · rw [List.all_eq_true] at hall ⊢
      intro x hx
      obtain ⟨c, hc1, hc2⟩ := List.mem_map.mp hx
      rw [← hc2]
      exact toLower_isSchemeChar (hall c hc1)
    · rw [List.map_map]
      have : Char.toLower ∘ Char.toLower = Char.toLower :=
        funext fun c => toLower_toLower c
      rw [this]
  · rw [if_neg hc] at h
    exact absurd rfl h

/-! ## Helper lemmas: trailing-slash stripping -/

theorem rstripSlashes_append (a b : List Char) :
    rstripSlashes (a ++ b) =
      if rstripSlashes b = [] then rstripSlashes a else a ++ rstripSlashes b := by
  unfold rstripSlashes
  rw [List.reverse_append, List.dropWhile_append]
  by_cases hb : (b.reverse.dropWhile (· = '/')).isEmpty = true
  · rw [if_pos hb]
    rw [List.isEmpty_iff] at hb
    rw [hb]
    simp
  · rw [if_neg hb]
    rw [List.isEmpty_iff] at hb
    rw [if_neg (by simpa using hb)]
    rw [List.reverse_append, List.reverse_reverse]

theorem rstripSlashes_eq_self {s : List Char} (h : s.getLast? ≠ some '/') :
    rstripSlashes s = s := by
  unfold rstripSlashes
  rw [← List.head?_reverse] at h
  cases hr : s.reverse with
  | nil =>
      have : s = [] := by simpa using congrArg List.reverse hr
      rw [this]; rfl
  | cons a t =>
      rw [hr] at h
      simp only [List.head?_cons] at h
      rw [List.dropWhile_cons, if_neg (by simpa using fun hc => h (by rw [hc]))]
      rw [← hr, List.reverse_reverse]

theorem rstripSlashes_getLast?_ne {s : List Char} :
    (rstripSlashes s).getLast? ≠ some '/' := by
  unfold rstripSlashes
  rw [List.getLast?_reverse]
  intro hcon
  have := head_dropWhile_false hcon
  simp at this

theorem mem_rstripSlashes {s : List Char} {c : Char} (h : c ∈ rstripSlashes s) : c ∈ s := by
  unfold rstripSlashes at h
  rw [List.mem_reverse] at h
  exact List.mem_reverse.mp (mem_dropWhile h)

theorem rstripSlashes_idem (s : List Char) :
    rstripSlashes (rstripSlashes s) = rstripSlashes s :=
  rstripSlashes_eq_self rstripSlashes_getLast?_ne

theorem getLast?_of_rstrip_nil {s : List Char} (h1 : rstripSlashes s = []) (h2 : s ≠ []) :
    s.getLast? = some '/' := by
  by_contra hc
  rw [rstripSlashes_eq_self hc] at h1
  exact h2 h1

/-! ## Helper lemmas: netloc and path parts -/

theorem splitNetloc_fst_mem {s : List Char} {c : Char} (h : c ∈ (splitNetloc s).1) :
    isNetlocEnd c = false := by
  unfold splitNetloc at h
  split at h
  · have := List.mem_takeWhile_imp h
    simpa using this
  · simp at h

theorem pathPart_mem {s : List Char} {c : Char} (h : c ∈ pathPart s) :
    c ≠ '#' ∧ c ≠ '?' := by
  unfold pathPart at h
  have h2 := List.mem_takeWhile_imp h
  have h3 := List.mem_takeWhile_imp (mem_takeWhile h)
  constructor
  · simpa using h3
  · simpa using h2

theorem ne_of_not_netlocEnd {c : Char} (h : isNetlocEnd c = false) :
    c ≠ '/' ∧ c ≠ '?' ∧ c ≠ '#' := by
  simp only [isNetlocEnd, Bool.or_eq_false_iff, beq_eq_false_iff_ne, ne_eq] at h
  exact ⟨h.1.1, h.1.2, h.2⟩

theorem pathPart_all {s : List Char} (h : ∀ c ∈ s, c ≠ '#' ∧ c ≠ '?') :
    pathPart s = s := by
  unfold pathPart
  have hin : s.takeWhile (· ≠ '#') = s :=
    takeWhile_all (fun a ha => by simpa using (h a ha).1)
  rw [hin]
  exact takeWhile_all (fun a ha => by simpa using (h a ha).2)

/-! ## The shape of every `_clean_url_for_queue` result -/

theorem trim_formula (sc R : List Char) :
    (if (sc ++ ':' :: '/' :: '/' :: R).getLast? = some '/' ∧
        1 < (sc ++ ':' :: '/' :: '/' :: R).length
     then rstripSlashes (sc ++ ':' :: '/' :: '/' :: R)
     else sc ++ ':' :: '/' :: '/' :: R) =
      if rstripSlashes R = [] then sc ++ [':']
      else sc ++ ':' :: '/' :: '/' :: rstripSlashes R := by
  have hsplit : sc ++ ':' :: '/' :: '/' :: R = (sc ++ [':']) ++ (['/', '/'] ++ R) := by
    simp
  have hlen : 1 < (sc ++ ':' :: '/' :: '/' :: R).length := by
    simp [List.length_append]
    omega
  have hlastcolon : (sc ++ [':']).getLast? = some ':' := by
    rw [List.getLast?_append]
    rfl
  by_cases hR : rstripSlashes R = []
  · rw [if_pos hR]
    have hlast : (sc ++ ':' :: '/' :: '/' :: R).getLast? = some '/' := by
      rw [hsplit, List.getLast?_append, List.getLast?_append]
      by_cases hRe : R = []
      · subst hRe; rfl
      · rw [getLast?_of_rstrip_nil hR hRe]; rfl
    rw [if_pos ⟨hlast, hlen⟩, hsplit, rstripSlashes_append]
    rw [if_pos (by rw [rstripSlashes_append, if_pos hR]; rfl)]
    exact rstripSlashes_eq_self (by rw [hlastcolon]; intro hcon; cases hcon)
  · rw [if_neg hR]
    by_cases hlast : R.getLast? = some '/'
    · have hlast2 : (sc ++ ':' :: '/' :: '/' :: R).getLast? = some '/' := by
        rw [hsplit, List.getLast?_append, List.getLast?_append, hlast]
        rfl
      rw [if_pos ⟨hlast2, hlen⟩, hsplit, rstripSlashes_append]
      have hbne : rstripSlashes (['/', '/'] ++ R) = ['/', '/'] ++ rstripSlashes R := by
        rw [rstripSlashes_append, if_neg hR]
      rw [hbne, if_neg (by simp)]
      simp
    · have hRR : rstripSlashes R = R := rstripSlashes_eq_self hlast
      have hRne : R ≠ [] := by
        intro hcon
        rw [hcon] at hRR
        exact hR (hRR.trans hcon.symm ▸ hRR)
      have hlast2 : ¬((sc ++ ':' :: '/' :: '/' :: R).getLast? = some '/' ∧
          1 < (sc ++ ':' :: '/' :: '/' :: R).length) := by
        intro hcon
        rcases hcon with ⟨hcon, -⟩
        rw [hsplit, List.getLast?_append, List.getLast?_append] at hcon
        cases hg : R.getLast? with
        | none =>
            rw [List.getLast?_eq_none_iff] at hg
            exact hRne hg
        | some a =>
            rw [hg] at hcon
            simp only [Option.or_some] at hcon
            rw [hcon] at hg
            exact hlast hg
      rw [if_neg hlast2, hRR]

/-- Applying `cleanUrlCore` to a string of the shape
`scheme ++ "://" ++ R`, where `R` carries no `'#'` or `'?'`. -/
theorem cleanUrlCore_decomposed (sc R : List Char) (h1 : sc ≠ [])
    (h2 : (sc.headD ' ').isAlpha = true) (h3 : sc.all isSchemeChar = true)
    (hR : ∀ c ∈ R, c ≠ '#' ∧ c ≠ '?') :
    cleanUrlCore (sc ++ ':' :: '/' :: '/' :: R) =
      if rstripSlashes R = [] then sc.map Char.toLower ++ [':']
      else sc.map Char.toLower ++ ':' :: '/' :: '/' :: rstripSlashes R := by
  have hnet : splitNetloc ('/' :: '/' :: R) =
      (R.takeWhile (fun c => !isNetlocEnd c), R.dropWhile (fun c => !isNetlocEnd c)) := rfl
  have hpp : pathPart (R.dropWhile (fun c => !isNetlocEnd c)) =
      R.dropWhile (fun c => !isNetlocEnd c) :=
    pathPart_all (fun c hc => hR c (mem_dropWhile hc))
  simp only [cleanUrlCore]
  rw [splitScheme_of_wf h1 h2 h3, hnet]
  simp only [hpp, List.takeWhile_append_dropWhile]
  exact trim_formula (sc.map Char.toLower) R

theorem cleanUrlCore_scheme_colon {sc : List Char} (h1 : sc ≠ [])
    (h2 : (sc.headD ' ').isAlpha = true) (h3 : sc.all isSchemeChar = true) :
    cleanUrlCore (sc ++ [':']) = sc.map Char.toLower ++ [':'] := by
  have hnet0 : splitNetloc ([] : List Char) = ([], []) := rfl
  have hpp0 : pathPart ([] : List Char) = [] := rfl
  simp only [cleanUrlCore]
  rw [show (sc ++ [':'] : List Char) = sc ++ ':' :: [] from rfl]
  rw [splitScheme_of_wf h1 h2 h3, hnet0]
  simp only [hpp0, List.append_nil]
  rw [trim_formula (sc.map Char.toLower) []]
  rfl

/-- Canonicalization of any URL, expressed through the trim formula; the
heart of the idempotence argument. -/
theorem cleanUrlCore_formula (u : List Char) :
    cleanUrlCore u =
      if rstripSlashes ((splitNetloc (splitScheme u).2).1 ++
          pathPart (splitNetloc (splitScheme u).2).2) = []
      then (splitScheme u).1 ++ [':']
      else (splitScheme u).1 ++ ':' :: '/' :: '/' ::
        rstripSlashes ((splitNetloc (splitScheme u).2).1 ++
          pathPart (splitNetloc (splitScheme u).2).2) := by
  simp only [cleanUrlCore]
  exact trim_formula (splitScheme u).1
    ((splitNetloc (splitScheme u).2).1 ++ pathPart (splitNetloc (splitScheme u).2).2)

/-- Idempotence of the canonicalizer on character lists, for URLs with a
nonempty scheme. -/
theorem cleanUrlCore_idem {u : List Char} (h : (splitScheme u).1 ≠ []) :
    cleanUrlCore (cleanUrlCore u) = cleanUrlCore u := by
  obtain ⟨h2, h3, h4⟩ := splitScheme_fst_spec h
  have hRmem : ∀ c ∈ (splitNetloc (splitScheme u).2).1 ++
      pathPart (splitNetloc (splitScheme u).2).2, c ≠ '#' ∧ c ≠ '?' := by
    intro c hc
    rcases List.mem_append.mp hc with hc | hc
    · have hne := ne_of_not_netlocEnd (splitNetloc_fst_mem hc)
      exact ⟨hne.2.2, hne.2.1⟩
    · exact pathPart_mem hc
  rw [cleanUrlCore_formula u]
  by_cases hcase : rstripSlashes ((splitNetloc (splitScheme u).2).1 ++
      pathPart (splitNetloc (splitScheme u).2).2) = []
  · rw [if_pos hcase]
    rw [cleanUrlCore_scheme_colon h h2 h3, h4]
  · rw [if_neg hcase]
    have hmem2 : ∀ c ∈ rstripSlashes ((splitNetloc (splitScheme u).2).1 ++
        pathPart (splitNetloc (splitScheme u).2).2), c ≠ '#' ∧ c ≠ '?' :=
      fun c hc => hRmem c (mem_rstripSlashes hc)
    rw [cleanUrlCore_decomposed _ _ h h2 h3 hmem2]
    rw [rstripSlashes_idem]
    rw [if_neg hcase, h4]

/-- What the canonicalizer actually returns on a well-formed URL
`scheme://host path ?query #frag`: the scheme is lowercased, the host is
kept verbatim (no lowercasing, no `www.` stripping), query and fragment
are dropped, and **all** trailing slashes of the path are removed — the
root path's slash included. -/
theorem cleanUrlCore_assembled (scheme host path query frag : List Char)
    (hs1 : scheme ≠ []) (hs2 : (scheme.headD ' ').isAlpha = true)
    (hs3 : scheme.all isSchemeChar = true)
    (hh1 : host ≠ []) (hh2 : ∀ c ∈ host, isNetlocEnd c = false)
    (hp1 : ∀ c ∈ path, c ≠ '#' ∧ c ≠ '?') (hp2 : path = [] ∨ path.headD ' ' = '/')
    (hq : ∀ c ∈ query, c ≠ '#') :
    cleanUrlCore (assembleUrl scheme host path query frag) =
      scheme.map Char.toLower ++ ':' :: '/' :: '/' :: (host ++ rstripSlashes path) := by
  have hhostpos : ∀ c ∈ host, (fun c => !isNetlocEnd c) c = true := by
    intro c hc
    show (!isNetlocEnd c) = true
    rw [hh2 c hc]
    rfl
  have hheadfails :
      (path ++ '?' :: query ++ '#' :: frag).takeWhile (fun c => !isNetlocEnd c) = [] ∧
        (path ++ '?' :: query ++ '#' :: frag).dropWhile (fun c => !isNetlocEnd c) =
          path ++ '?' :: query ++ '#' :: frag := by
    rcases hp2 with hp2 | hp2
    · subst hp2
      simp only [List.nil_append, List.cons_append]
      constructor
      · rw [List.takeWhile_cons, if_neg (by decide)]
      · rw [List.dropWhile_cons, if_neg (by decide)]
    · have hpne : path ≠ [] := by
        intro hcon
        rw [hcon] at hp2
        exact absurd hp2 (by decide)
      obtain ⟨p0, pt, hpe⟩ := List.exists_cons_of_ne_nil hpne
      rw [hpe] at hp2
      simp only [List.headD_cons] at hp2
      subst hp2
      rw [hpe]
      simp only [List.cons_append]
      constructor
      · rw [List.takeWhile_cons, if_neg (by decide)]
      · rw [List.dropWhile_cons, if_neg (by decide)]
  have htake : (host ++ path ++ '?' :: query ++ '#' :: frag).takeWhile
      (fun c => !isNetlocEnd c) = host := by
    have hX : host ++ path ++ '?' :: query ++ '#' :: frag =
        host ++ (path ++ '?' :: query ++ '#' :: frag) := by
      simp [List.append_assoc]
    rw [hX, List.takeWhile_append_of_pos hhostpos, hheadfails.1, List.append_nil]
  have hdrop : (host ++ path ++ '?' :: query ++ '#' :: frag).dropWhile
      (fun c => !isNetlocEnd c) = path ++ '?' :: query ++ '#' :: frag := by
    have hX : host ++ path ++ '?' :: query ++ '#' :: frag =
        host ++ (path ++ '?' :: query ++ '#' :: frag) := by
      simp [List.append_assoc]
    rw [hX, List.dropWhile_append_of_pos hhostpos, hheadfails.2]
  have hpath : pathPart (path ++ '?' :: query ++ '#' :: frag) = path := by
    unfold pathPart
    have h1 : (path ++ '?' :: query ++ '#' :: frag).takeWhile (· ≠ '#') =
        path ++ '?' :: query := by
      have hX : path ++ '?' :: query ++ '#' :: frag =
          (path ++ '?' :: query) ++ '#' :: frag := by
        simp [List.append_assoc]
      rw [hX, List.takeWhile_append_of_pos]
      · rw [List.takeWhile_cons, if_neg (by decide), List.append_nil]
      · intro a ha
        rcases List.mem_append.mp ha with ha | ha
        · simpa using (hp1 a ha).1
        · rcases List.mem_cons.mp ha with ha | ha
          · subst ha; decide
          · simpa using hq a ha
    rw [h1, List.takeWhile_append_of_pos]
    · rw [List.takeWhile_cons, if_neg (by decide), List.append_nil]
    · intro a ha
      simpa using (hp1 a ha).2
  have hstriphost : rstripSlashes host = host := by
    apply rstripSlashes_eq_self
    intro hcon
    have hm : '/' ∈ host := List.mem_of_mem_getLast? (Option.mem_def.mpr hcon)
    have := hh2 '/' hm
    simp [isNetlocEnd] at this
  have hstrip : rstripSlashes (host ++ path) = host ++ rstripSlashes path := by
    rw [rstripSlashes_append]
    by_cases hps : rstripSlashes path = []
    · rw [if_pos hps, hps, hstriphost, List.append_nil]
    · rw [if_neg hps]
  have hne : ¬(rstripSlashes (host ++ path) = []) := by
    rw [hstrip]
    intro hcon
    exact hh1 (List.append_eq_nil.mp hcon).1
  have hnet : splitNetloc ('/' :: '/' :: (host ++ path ++ '?' :: query ++ '#' :: frag)) =
      ((host ++ path ++ '?' :: query ++ '#' :: frag).takeWhile (fun c => !isNetlocEnd c),
       (host ++ path ++ '?' :: query ++ '#' :: frag).dropWhile (fun c => !isNetlocEnd c)) := rfl
  simp only [cleanUrlCore, assembleUrl]
  rw [splitScheme_of_wf hs1 hs2 hs3, hnet]
  simp only [htake, hdrop, hpath]
  rw [trim_formula (scheme.map Char.toLower) (host ++ path)]
  rw [if_neg hne, hstrip]

/-! ## Helper lemmas: folds over maxima, find? -/

theorem le_foldr_max (b : Int) (l : List Int) : b ≤ l.foldr max b := by
  induction l with
  | nil => simp
  | cons a t ih =>
      simp only [List.foldr_cons]
      exact le_trans ih (le_max_right a _)

theorem mem_le_foldr_max {x : Int} {l : List Int} (b : Int) (h : x ∈ l) :
    x ≤ l.foldr max b := by
  induction l with
  | nil => simp at h
  | cons a t ih =>
      simp only [List.foldr_cons]
      rcases List.mem_cons.mp h with rfl | h
      · exact le_max_left _ _
      · exact le_trans (ih h) (le_max_right _ _)

theorem foldr_max_cases (b : Int) (l : List Int) : l.foldr max b = b ∨ l.foldr max b ∈ l := by
  induction l with
  | nil => simp
  | cons a t ih =>
      simp only [List.foldr_cons]
      rcases max_cases a (t.foldr max b) with ⟨h1, -⟩ | ⟨h1, -⟩
      · right; rw [h1]; exact List.mem_cons_self a t
      · rcases ih with ih | ih
        · left; rw [h1]; exact ih
        · right; rw [h1]; exact List.mem_cons_of_mem a ih

theorem foldr_max_le {l : List Int} {b c : Int} (hb : b ≤ c) (h : ∀ x ∈ l, x ≤ c) :
    l.foldr max b ≤ c := by
  induction l with
  | nil => simpa using hb
  | cons a t ih =>
      simp only [List.foldr_cons]
      exact max_le (h a (List.mem_cons_self a t))
        (ih (fun x hx => h x (List.mem_cons_of_mem a hx)))

theorem find?_congr {p q : α → Bool} :
    ∀ {l : List α}, (∀ x ∈ l, p x = q x) → l.find? p = l.find? q := by
  intro l
  induction l with
  | nil => intro _; rfl
  | cons a t ih =>
      intro h
      rw [List.find?_cons, List.find?_cons, h a (List.mem_cons_self a t)]
      cases q a
      · exact ih (fun x hx => h x (List.mem_cons_of_mem a hx))
      · rfl

theorem cast_foldr_max : ∀ (l : List Nat), l ≠ [] →
    (l.map (fun n : Nat => (n : Int))).foldr max (-1) = ((l.foldr max 0 : Nat) : Int) := by
  intro l
  induction l with
  | nil => intro h; exact absurd rfl h
  | cons a t ih =>
      intro _
      cases ht : t with
      | nil =>
          simp only [List.map_cons, List.map_nil, List.foldr_cons, List.foldr_nil]
          rw [max_eq_left (by omega : (-1 : Int) ≤ (a : Int))]
          rw [Nat.max_eq_left (Nat.zero_le a)]
      | cons b t2 =>
          rw [← ht]
          have hne : t ≠ [] := by rw [ht]; simp
          simp only [List.map_cons, List.foldr_cons]
          rw [ih hne, ← Nat.cast_max]

/-! ## Helper lemmas: robots rules -/

theorem effValue_ne_nil (v : List Char) : effValue v ≠ [] := by
  unfold effValue
  by_cases h : v = []
  · rw [if_pos h]; simp
  · rw [if_neg h]; exact h

theorem effValue_length_pos (v : List Char) : 1 ≤ (effValue v).length := by
  have := effValue_ne_nil v
  cases h : effValue v with
  | nil => exact absurd h this
  | cons a t => simp

theorem chooseBest_nil (k : Int) (m : Option RuleType) : chooseBest k m [] = m := rfl

theorem chooseBest_cons (k : Int) (m : Option RuleType) (a : RuleType × List Char)
    (l : List (RuleType × List Char)) :
    chooseBest k m (a :: l) =
      match (a :: l).find? (fun r => ((effValue r.2).length : Int) =
          ((a :: l).map (fun r => ((effValue r.2).length : Int))).foldr max k) with
      | some r => some r.1
      | none => m := rfl

theorem chooseBest_of_ne_nil (k : Int) (m : Option RuleType)
    {ms : List (RuleType × List Char)} (h : ms ≠ []) :
    chooseBest k m ms =
      match ms.find? (fun r => ((effValue r.2).length : Int) =
          (ms.map (fun r => ((effValue r.2).length : Int))).foldr max k) with
      | some r => some r.1
      | none => m := by
  cases ms with
  | nil => exact absurd rfl h
  | cons a l => rfl

/-- The scan loop of `_find_robots_decision` computes, over the rules that
match with effective length above the running threshold, the first rule
attaining the maximal effective length (falling back to the accumulator
when none does). -/
theorem robotsScan_eq_chooseBest (p : List Char) :
    ∀ (rules : List (RuleType × List Char)) (m : Option RuleType) (k : Int),
      robotsScan p rules m k =
        chooseBest k m (rules.filter (fun r => pathMatches p (effValue r.2) &&
          decide (k < ((effValue r.2).length : Int)))) := by
  intro rules
  induction rules with
  | nil => intro m k; rfl
  | cons r rest ih =>
      obtain ⟨t, v⟩ := r
      intro m k
      have hscan : robotsScan p ((t, v) :: rest) m k =
          if pathMatches p (effValue v) = true ∧ k < ((effValue v).length : Int)
          then robotsScan p rest (some t) ((effValue v).length : Int)
          else robotsScan p rest m k := rfl
      by_cases hc : pathMatches p (effValue v) = true ∧ k < ((effValue v).length : Int)
      · rw [hscan, if_pos hc, ih (some t) ((effValue v).length : Int)]
        rw [List.filter_cons, if_pos (by simp [hc.1, hc.2])]
        have hsub : ∀ x ∈ rest.filter (fun s => pathMatches p (effValue s.2) &&
            decide (((effValue v).length : Int) < ((effValue s.2).length : Int))),
            x ∈ rest.filter (fun s => pathMatches p (effValue s.2) &&
              decide (k < ((effValue s.2).length : Int))) := by
          intro x hx
          rw [List.mem_filter] at hx ⊢
          refine ⟨hx.1, ?_⟩
          have h2 := hx.2
          simp only [Bool.and_eq_true, decide_eq_true_eq] at h2 ⊢
          exact ⟨h2.1, lt_trans hc.2 h2.2⟩
        by_cases hF1 : rest.filter (fun s => pathMatches p (effValue s.2) &&
            decide (((effValue v).length : Int) < ((effValue s.2).length : Int))) = []
        · -- nothing in the tail beats the head: the head wins
          rw [hF1, chooseBest_nil, chooseBest_cons]
          have hbound : ∀ x ∈ rest.filter (fun s => pathMatches p (effValue s.2) &&
              decide (k < ((effValue s.2).length : Int))),
              ((effValue x.2).length : Int) ≤ ((effValue v).length : Int) := by
            intro x hx
            by_contra hgt
            push_neg at hgt
            have : x ∈ rest.filter (fun s => pathMatches p (effValue s.2) &&
                decide (((effValue v).length : Int) < ((effValue s.2).length : Int))) := by
              rw [List.mem_filter] at hx ⊢
              refine ⟨hx.1, ?_⟩
              have h2 := hx.2
              simp only [Bool.and_eq_true, decide_eq_true_eq] at h2 ⊢
              exact ⟨h2.1, hgt⟩
            rw [hF1] at this
            simp at this
          have hM : ((((t, v) :: rest.filter (fun s => pathMatches p (effValue s.2) &&
              decide (k < ((effValue s.2).length : Int)))).map
                (fun s => ((effValue s.2).length : Int))).foldr max k) =
              ((effValue v).length : Int) := by
            simp only [List.map_cons, List.foldr_cons]
            apply max_eq_left
            apply foldr_max_le (le_of_lt hc.2)
            intro x hx
            obtain ⟨y, hy1, hy2⟩ := List.mem_map.mp hx
            rw [← hy2]
            exact hbound y hy1
          rw [List.find?_cons, hM]
          simp
        · -- some tail rule beats the head
          obtain ⟨f, hf⟩ := List.exists_mem_of_ne_nil _ hF1
          have hfprop := List.mem_filter.mp hf
          have hflen : ((effValue v).length : Int) < ((effValue f.2).length : Int) := by
            have h2 := hfprop.2
            simp only [Bool.and_eq_true, decide_eq_true_eq] at h2
            exact h2.2
          -- the maximum over the strict-improvement list
          set F1 := rest.filter (fun s => pathMatches p (effValue s.2) &&
            decide (((effValue v).length : Int) < ((effValue s.2).length : Int))) with hF1def
          set F2 := rest.filter (fun s => pathMatches p (effValue s.2) &&
            decide (k < ((effValue s.2).length : Int))) with hF2def
          set M1 := ((F1.map (fun s => ((effValue s.2).length : Int))).foldr max
            ((effValue v).length : Int)) with hM1def
          have hM1mem : M1 ∈ F1.map (fun s => ((effValue s.2).length : Int)) := by
            rcases foldr_max_cases ((effValue v).length : Int)
                (F1.map (fun s => ((effValue s.2).length : Int))) with hca | hca
            · exfalso
              have hle : ((effValue f.2).length : Int) ≤ M1 :=
                mem_le_foldr_max _ (List.mem_map_of_mem _ hf)
              rw [hM1def, hca] at hle
              omega
            · exact hca
          have hM1gt : ((effValue v).length : Int) < M1 := by
            obtain ⟨y, hy1, hy2⟩ := List.mem_map.mp hM1mem
            have h2 := (List.mem_filter.mp hy1).2
            simp only [Bool.and_eq_true, decide_eq_true_eq] at h2
            rw [← hy2]
            exact h2.2
          have hF1le : ∀ x ∈ F1, ((effValue x.2).length : Int) ≤ M1 := by
            intro x hx
            exact mem_le_foldr_max _ (List.mem_map_of_mem _ hx)
          have hM2 : ((((t, v) :: F2).map
              (fun s => ((effValue s.2).length : Int))).foldr max k) = M1 := by
            simp only [List.map_cons, List.foldr_cons]
            apply le_antisymm
            · apply max_le (le_of_lt hM1gt)
              apply foldr_max_le (le_of_lt (lt_trans hc.2 hM1gt))
              intro x hx
              obtain ⟨y, hy1, hy2⟩ := List.mem_map.mp hx
              rw [← hy2]
              by_cases hcomp : ((effValue v).length : Int) < ((effValue y.2).length : Int)
              · apply hF1le
                rw [hF1def, List.mem_filter]
                have h2 := (List.mem_filter.mp hy1).2
                simp only [Bool.and_eq_true, decide_eq_true_eq] at h2 ⊢
                exact ⟨(List.mem_filter.mp hy1).1, h2.1, hcomp⟩
              · push_neg at hcomp
                exact le_trans hcomp (le_of_lt hM1gt)
            · obtain ⟨y, hy1, hy2⟩ := List.mem_map.mp hM1mem
              rw [← hy2]
              have hyF2 : y ∈ F2 := hsub y hy1
              refine le_trans ?_ (le_max_right _ _)
              exact mem_le_foldr_max _ (List.mem_map_of_mem _ hyF2)
          -- the two filtered searches find the same rule
          have hfind : F2.find? (fun s => ((effValue s.2).length : Int) = M1) =
              F1.find? (fun s => ((effValue s.2).length : Int) = M1) := by
            rw [hF1def, hF2def, List.find?_filter, List.find?_filter]
            apply find?_congr
            intro x _
            by_cases hxm : ((effValue x.2).length : Int) = M1
            · apply decide_eq_decide.mpr
              constructor
              · rintro ⟨h1, -⟩
                refine ⟨?_, by simp [hxm]⟩
                simp only [Bool.and_eq_true, decide_eq_true_eq] at h1 ⊢
                exact ⟨h1.1, by omega⟩
              · rintro ⟨h1, -⟩
                refine ⟨?_, by simp [hxm]⟩
                simp only [Bool.and_eq_true, decide_eq_true_eq] at h1 ⊢
                refine ⟨h1.1, ?_⟩
                have := hc.2
                omega
            · apply decide_eq_decide.mpr
              constructor
              · rintro ⟨-, h2⟩
                simp only [decide_eq_true_eq] at h2
                exact absurd h2 hxm
              · rintro ⟨-, h2⟩
                simp only [decide_eq_true_eq] at h2
                exact absurd h2 hxm
          -- the search in the improvement list succeeds
          have hex : ∃ x ∈ F1, (fun s =>
              decide (((effValue s.2).length : Int) = M1)) x = true := by
            obtain ⟨y, hy1, hy2⟩ := List.mem_map.mp hM1mem
            exact ⟨y, hy1, by simpa using hy2⟩
          have hsome : (F1.find? (fun s =>
              decide (((effValue s.2).length : Int) = M1))).isSome = true :=
            List.find?_isSome.mpr hex
          obtain ⟨w, hw⟩ := Option.isSome_iff_exists.mp hsome
          have hLHS : chooseBest ((effValue v).length : Int) (some t) F1 = some w.1 := by
            rw [chooseBest_of_ne_nil _ _ hF1, ← hM1def, hw]
          have hRHS : chooseBest k m ((t, v) :: F2) = some w.1 := by
            rw [chooseBest_cons, hM2, List.find?_cons]
            have hhead : decide (((effValue v).length : Int) = M1) = false := by
              simp only [decide_eq_false_iff_not]
              omega
            rw [hhead, hfind, hw]
          rw [hLHS, hRHS]
      · rw [hscan, if_neg hc, ih m k]
        rw [List.filter_cons, if_neg (by
          simp only [Bool.and_eq_true, decide_eq_true_eq]
          exact hc)]

/-- The decision of `_find_robots_decision` coincides with the brute-force
first-attains-the-maximum reference on the matching rules. -/
theorem findRobotsDecision_eq_brute (path : List Char)
    (rules : List (RuleType × List Char)) :
    findRobotsDecision path rules = bruteRobotsDecision path rules := by
  simp only [findRobotsDecision, bruteRobotsDecision]
  rw [robotsScan_eq_chooseBest]
  have hfeq : rules.filter (fun r => pathMatches (normPath path) (effValue r.2) &&
      decide ((-1 : Int) < ((effValue r.2).length : Int))) =
      rules.filter (fun r => pathMatches (normPath path) (effValue r.2)) := by
    apply List.filter_congr
    intro x _
    have h1 : decide ((-1 : Int) < ((effValue x.2).length : Int)) = true := by
      simp only [decide_eq_true_eq]
      have := effValue_length_pos x.2
      omega
    rw [h1, Bool.and_true]
  rw [hfeq]
  generalize rules.filter (fun r => pathMatches (normPath path) (effValue r.2)) = ms
  cases ms with
  | nil => rfl
  | cons a l =>
      rw [chooseBest_cons]
      have hcast2 : ((a :: l).map (fun r => ((effValue r.2).length : Int))).foldr max (-1)
          = ((((a :: l).map (fun r => (effValue r.2).length)).foldr max 0 : Nat) : Int) := by
        have h1 : (a :: l).map (fun r => ((effValue r.2).length : Int)) =
            ((a :: l).map (fun r => (effValue r.2).length)).map (fun n : Nat => (n : Int)) := by
          rw [List.map_map]
          rfl
        rw [h1]
        exact cast_foldr_max _ (by simp)
      have hpred : ∀ x ∈ (a :: l),
          (decide (((effValue x.2).length : Int) =
            ((a :: l).map (fun r => ((effValue r.2).length : Int))).foldr max (-1))) =
          (decide ((effValue x.2).length =
            (((a :: l).map (fun r => (effValue r.2).length)).foldr max 0))) := by
        intro x _
        apply decide_eq_decide.mpr
        rw [hcast2]
        exact Nat.cast_inj
      have hfind := find?_congr hpred
      rw [hfind]
      -- the maximum is attained, so the search succeeds
      have hge : ((effValue a.2).length : Int) ≤
          ((a :: l).map (fun r => ((effValue r.2).length : Int))).foldr max (-1) :=
        mem_le_foldr_max _ (List.mem_map_of_mem _ (List.mem_cons_self a l))
      have hmem : ((a :: l).map (fun r => ((effValue r.2).length : Int))).foldr max (-1) ∈
          (a :: l).map (fun r => ((effValue r.2).length : Int)) := by
        rcases foldr_max_cases (-1) ((a :: l).map (fun r => ((effValue r.2).length : Int)))
          with hcc | hcc
        · exfalso
          rw [hcc] at hge
          have := effValue_length_pos a.2
          omega
        · exact hcc
      obtain ⟨y, hy1, hy2⟩ := List.mem_map.mp hmem
      have hex : ∃ x ∈ (a :: l), (decide ((effValue x.2).length =
          (((a :: l).map (fun r => (effValue r.2).length)).foldr max 0))) = true := by
        refine ⟨y, hy1, ?_⟩
        simp only [decide_eq_true_eq]
        have hyy : ((effValue y.2).length : Int) =
            ((((a :: l).map (fun r => (effValue r.2).length)).foldr max 0 : Nat) : Int) := by
          rw [hy2, hcast2]
        exact Nat.cast_inj.mp hyy
      have hsome : ((a :: l).find? (fun x => decide ((effValue x.2).length =
          (((a :: l).map (fun r => (effValue r.2).length)).foldr max 0)))).isSome = true :=
        List.find?_isSome.mpr hex
      obtain ⟨w, hw⟩ := Option.isSome_iff_exists.mp hsome
      rw [hw]
      obtain ⟨wt, wv⟩ := w
      cases wt <;> rfl

/-! ## Helper lemmas: the lease transaction -/

theorem mem_insertByOrder {x y : QEntry} :
    ∀ {l : List QEntry}, y ∈ insertByOrder x l ↔ y = x ∨ y ∈ l := by
  intro l
  induction l with
  | nil => simp [insertByOrder]
  | cons a t ih =>
      unfold insertByOrder
      by_cases h : leaseLE x a = true
      · rw [if_pos h]
        simp [List.mem_cons]
      · rw [if_neg h]
        simp only [List.mem_cons, ih]
        tauto

theorem mem_sortByOrder {y : QEntry} :
    ∀ {l : List QEntry}, y ∈ sortByOrder l ↔ y ∈ l := by
  intro l
  induction l with
  | nil => simp [sortByOrder]
  | cons a t ih =>
      unfold sortByOrder
      rw [mem_insertByOrder]
      simp [ih, List.mem_cons]

/-- Every selected entry comes from the table and was `pending`. -/
theorem lease_sel_spec {limit now : Nat} {q : List QEntry} {e : QEntry}
    (h : e ∈ (get_next_from_queue limit now q).1) :
    e ∈ q ∧ e.status = QStatus.pending := by
  unfold get_next_from_queue at h
  simp only at h
  have h2 : e ∈ sortByOrder (q.filter (fun e => e.status = QStatus.pending)) :=
    (List.take_sublist _ _).mem h
  rw [mem_sortByOrder] at h2
  rw [List.mem_filter] at h2
  exact ⟨h2.1, by simpa using h2.2⟩

/-- The updated table keeps exactly the original ids. -/
theorem lease_ids_preserved (limit now : Nat) (q : List QEntry) :
    ((get_next_from_queue limit now q).2.map (·.id)) = q.map (·.id) := by
  unfold get_next_from_queue
  simp only [List.map_map]
  apply List.map_congr_left
  intro e _
  by_cases h : ((get_next_from_queue limit now q).1.map (·.id)).contains e.id = true
  · simp only [Function.comp]
    rw [if_pos]
    · exact h
  · simp only [Function.comp]
    rw [if_neg]
    exact h

/-- The updated table, written through the selection of the same call. -/
theorem lease_snd_eq (limit now : Nat) (q : List QEntry) :
    (get_next_from_queue limit now q).2 =
      q.map (fun e =>
        if ((get_next_from_queue limit now q).1.map (·.id)).contains e.id then
          { e with status := QStatus.processing, processedAt := some now }
        else e) := rfl

/-- An id that has an entry in `processing` keeps one after a lease. -/
theorem lease_processing_persists {limit now : Nat} {q : List QEntry} {i : Nat}
    (h : ∃ e ∈ q, e.id = i ∧ e.status = QStatus.processing) :
    ∃ e ∈ (get_next_from_queue limit now q).2,
      e.id = i ∧ e.status = QStatus.processing := by
  obtain ⟨e, he, hid, hst⟩ := h
  rw [lease_snd_eq]
  by_cases hc : ((get_next_from_queue limit now q).1.map (·.id)).contains e.id = true
  · refine ⟨{ e with status := QStatus.processing, processedAt := some now },
      List.mem_map.mpr ⟨e, he, by rw [if_pos hc]⟩, hid, rfl⟩
  · refine ⟨e, List.mem_map.mpr ⟨e, he, by rw [if_neg hc]⟩, hid, hst⟩

/-- Every id handed out by a lease has a `processing` entry afterwards. -/
theorem lease_establishes_processing {limit now : Nat} {q : List QEntry} {i : Nat}
    (h : i ∈ (get_next_from_queue limit now q).1.map (·.id)) :
    ∃ e ∈ (get_next_from_queue limit now q).2,
      e.id = i ∧ e.status = QStatus.processing := by
  obtain ⟨e, he, hid⟩ := List.mem_map.mp h
  have heq := (lease_sel_spec he).1
  have hcontains : ((get_next_from_queue limit now q).1.map (·.id)).contains e.id = true := by
    have hm : e.id ∈ (get_next_from_queue limit now q).1.map (·.id) :=
      List.mem_map_of_mem _ he
    simpa using hm
  rw [lease_snd_eq]
  refine ⟨{ e with status := QStatus.processing, processedAt := some now },
    List.mem_map.mpr ⟨e, heq, by rw [if_pos hcontains]⟩, hid, rfl⟩

/-- An id whose entry is `processing` is never handed out by a lease. -/
theorem lease_excludes_processing {limit now : Nat} {q : List QEntry} {i : Nat}
    (hnodup : (q.map (·.id)).Nodup)
    (h : ∃ e ∈ q, e.id = i ∧ e.status = QStatus.processing) :
    i ∉ (get_next_from_queue limit now q).1.map (·.id) := by
  intro hin
  obtain ⟨e1, he1, hid1⟩ := List.mem_map.mp hin
  obtain ⟨e2, he2, hid2, hst2⟩ := h
  obtain ⟨he1q, he1p⟩ := lease_sel_spec he1
  have : e1 = e2 :=
    List.inj_on_of_nodup_map hnodup he1q he2 (by rw [hid1, hid2])
  rw [this, hst2] at he1p
  cases he1p

/-- No future lease in a lease-only trace returns an id that is already
`processing`. -/
theorem not_in_future_selections :
    ∀ (steps : List (Nat × Nat)) (q : List QEntry) (i : Nat),
      (q.map (·.id)).Nodup →
      (∃ e ∈ q, e.id = i ∧ e.status = QStatus.processing) →
      ∀ s ∈ leaseSelections steps q, i ∉ s := by
  intro steps
  induction steps with
  | nil => intro q i _ _ s hs; simp [leaseSelections] at hs
  | cons step rest ih =>
      intro q i hnodup hproc s hs
      obtain ⟨limit, now⟩ := step
      unfold leaseSelections at hs
      simp only [List.mem_cons] at hs
      rcases hs with hs | hs
      · rw [hs]
        exact lease_excludes_processing hnodup hproc
      · refine ih _ i ?_ (lease_processing_persists hproc) s hs
        rw [lease_ids_preserved]
        exact hnodup

/-- Pairwise disjointness of the id sets returned along any serialized
sequence of lease transactions. -/
theorem lease_selections_pairwise_disjoint :
    ∀ (steps : List (Nat × Nat)) (q : List QEntry),
      (q.map (·.id)).Nodup →
      List.Pairwise (fun s t => ∀ i ∈ s, i ∉ t) (leaseSelections steps q) := by
  intro steps
  induction steps with
  | nil => intro q _; exact List.Pairwise.nil
  | cons step rest ih =>
      intro q hnodup
      obtain ⟨limit, now⟩ := step
      unfold leaseSelections
      apply List.Pairwise.cons
      · intro s hs i hi
        have hproc := @lease_establishes_processing limit now q i hi
        have hnodup2 : ((get_next_from_queue limit now q).2.map (·.id)).Nodup := by
          rw [lease_ids_preserved]
          exact hnodup
        exact not_in_future_selections rest _ i hnodup2 hproc s hs
      · apply ih
        rw [lease_ids_preserved]
        exact hnodup

/-! ## Helper lemmas: the enqueue upsert -/

theorem upsert_filter {url : String} (pr dp : Int) :
    ∀ (q : List QEntry), ((q.map (·.url)).Nodup) →
      ∀ e0 ∈ q, e0.url = url →
        ((q.map (fun e => if e.url = url then
            { e with priority := max e.priority pr, depth := min e.depth dp }
          else e)).filter (fun e => e.url == url)) =
        [{ e0 with priority := max e0.priority pr, depth := min e0.depth dp }] := by
  intro q
  induction q with
  | nil => intro _ e0 h; simp at h
  | cons a t ih =>
      intro hu e0 he0 hurl
      rw [List.map_cons] at hu
      rw [List.nodup_cons] at hu
      rw [List.map_cons]
      by_cases ha : a.url = url
      · have he0a : e0 = a := by
          rcases List.mem_cons.mp he0 with h | h
          · exact h
          · exfalso
            apply hu.1
            have heq : e0.url = a.url := by rw [hurl, ha]
            exact List.mem_map.mpr ⟨e0, h, heq⟩
        rw [if_pos ha, List.filter_cons, if_pos (by simp [ha])]
        have htail : ((t.map (fun e => if e.url = url then
            { e with priority := max e.priority pr, depth := min e.depth dp }
          else e)).filter (fun e => e.url == url)) = [] := by
          rw [List.filter_eq_nil_iff]
          intro x hx
          obtain ⟨y, hy1, hy2⟩ := List.mem_map.mp hx
          have hyne : y.url ≠ url := by
            intro hcon
            apply hu.1
            have heq : y.url = a.url := by rw [hcon, ha]
            exact List.mem_map.mpr ⟨y, hy1, heq⟩
          have hxy : x.url = y.url := by
            rw [← hy2, if_neg hyne]
          simp only [beq_iff_eq]
          rw [hxy]
          exact hyne
        rw [htail, he0a, ha]
      · have he0t : e0 ∈ t := by
          rcases List.mem_cons.mp he0 with h | h
          · exfalso; rw [h] at hurl; exact ha hurl
          · exact h
        rw [if_neg ha, List.filter_cons, if_neg (by simp [ha])]
        exact ih hu.2 e0 he0t hurl

/-! ## Helper lemmas: the fan-out loops -/

theorem internalKept_length (budget cap : Nat) (cnt : String → Nat) :
    ∀ (links : List Link) (seen : List String) (added : Nat),
      (internalKept budget cap cnt links seen added).length ≤ budget - added := by
  intro links
  induction links with
  | nil => intro seen added; simp [internalKept]
  | cons l ls ih =>
      intro seen added
      unfold internalKept
      by_cases hb : budget ≤ added
      · rw [if_pos hb]; simp
      · rw [if_neg hb]
        by_cases hseen : seen.contains (cleanUrlForQueue l.href) = true
        · rw [if_pos hseen]; exact ih seen added
        · rw [if_neg hseen]
          by_cases hcap : cap ≤ cnt l.domain
          · rw [if_pos hcap]; exact ih _ added
          · rw [if_neg hcap]
            have := ih (cleanUrlForQueue l.href :: seen) (added + 1)
            simp only [List.length_cons]
            omega

theorem externalKept_length (budget cap : Nat) (cnt : String → Nat) :
    ∀ (links : List Link) (seen : List String) (added : Nat),
      (externalKept budget cap cnt links seen added).length ≤ budget - added := by
  intro links
  induction links with
  | nil => intro seen added; simp [externalKept]
  | cons l ls ih =>
      intro seen added
      unfold externalKept
      by_cases hb : budget ≤ added
      · rw [if_pos hb]; simp
      · rw [if_neg hb]
        by_cases hseen : seen.contains l.domain = true
        · rw [if_pos hseen]; exact ih seen added
        · rw [if_neg hseen]
          by_cases hcap : cap ≤ cnt l.domain
          · rw [if_pos hcap]; exact ih _ added
          · rw [if_neg hcap]
            have := ih (l.domain :: seen) (added + 1)
            simp only [List.length_cons]
            omega

theorem internalKept_nodup (budget cap : Nat) (cnt : String → Nat) :
    ∀ (links : List Link) (seen : List String) (added : Nat),
      ((internalKept budget cap cnt links seen added).map
        (fun l => cleanUrlForQueue l.href)).Nodup ∧
      ∀ x ∈ (internalKept budget cap cnt links seen added).map
        (fun l => cleanUrlForQueue l.href), x ∉ seen := by
  intro links
  induction links with
  | nil => intro seen added; simp [internalKept]
  | cons l ls ih =>
      intro seen added
      unfold internalKept
      by_cases hb : budget ≤ added
      · rw [if_pos hb]; simp
      · rw [if_neg hb]
        by_cases hseen : seen.contains (cleanUrlForQueue l.href) = true
        · rw [if_pos hseen]; exact ih seen added
        · rw [if_neg hseen]
          by_cases hcap : cap ≤ cnt l.domain
          · rw [if_pos hcap]
            obtain ⟨ha, hb2⟩ := ih (cleanUrlForQueue l.href :: seen) added
            exact ⟨ha, fun x hx hxs =>
              hb2 x hx (List.mem_cons_of_mem _ hxs)⟩
          · rw [if_neg hcap]
            obtain ⟨ha, hb2⟩ := ih (cleanUrlForQueue l.href :: seen) (added + 1)
            simp only [List.map_cons]
            constructor
            · rw [List.nodup_cons]
              refine ⟨fun hcon => ?_, ha⟩
              exact hb2 _ hcon (List.mem_cons_self _ _)
            · intro x hx hxs
              rcases List.mem_cons.mp hx with h | h
              · rw [h] at hxs
                exact hseen (by simpa using hxs)
              · exact hb2 x h (List.mem_cons_of_mem _ hxs)

theorem externalKept_nodup (budget cap : Nat) (cnt : String → Nat) :
    ∀ (links : List Link) (seen : List String) (added : Nat),
      ((externalKept budget cap cnt links seen added).map (·.domain)).Nodup ∧
      ∀ x ∈ (externalKept budget cap cnt links seen added).map (·.domain), x ∉ seen := by
  intro links
  induction links with
  | nil => intro seen added; simp [externalKept]
  | cons l ls ih =>
      intro seen added
      unfold externalKept
      by_cases hb : budget ≤ added
      · rw [if_pos hb]; simp
      · rw [if_neg hb]
        by_cases hseen : seen.contains l.domain = true
        · rw [if_pos hseen]; exact ih seen added
        · rw [if_neg hseen]
          by_cases hcap : cap ≤ cnt l.domain
          · rw [if_pos hcap]
            obtain ⟨ha, hb2⟩ := ih (l.domain :: seen) added
            exact ⟨ha, fun x hx hxs => hb2 x hx (List.mem_cons_of_mem _ hxs)⟩
          · rw [if_neg hcap]
            obtain ⟨ha, hb2⟩ := ih (l.domain :: seen) (added + 1)
            simp only [List.map_cons]
            constructor
            · rw [List.nodup_cons]
              refine ⟨fun hcon => ?_, ha⟩
              exact hb2 _ hcon (List.mem_cons_self _ _)
            · intro x hx hxs
              rcases List.mem_cons.mp hx with h | h
              · rw [h] at hxs
                exact hseen (by simpa using hxs)
              · exact hb2 x h (List.mem_cons_of_mem _ hxs)

/-! ## The claims -/

/-- Claim C1: the lease transaction `get_next_from_queue` selects only rows whose
status is `'pending'`, transitions every selected row to `'processing'`
with `processed_at` set in the same atomic step, and across any serialized
sequence of lease transactions (the `FOR UPDATE` transaction serializes
concurrent callers) the id sets handed out are pairwise disjoint.  The
hypothesis is uniqueness of the primary key `id`. -/
theorem c1_lease_batch_mutual_exclusion (limit now : Nat) (q : List QEntry)
    (hnodup : (q.map (·.id)).Nodup) :
    (∀ e ∈ (get_next_from_queue limit now q).1,
      e ∈ q ∧ e.status = QStatus.pending) ∧
    (∀ e ∈ (get_next_from_queue limit now q).1,
      ∃ e2 ∈ (get_next_from_queue limit now q).2,
        e2.id = e.id ∧ e2.status = QStatus.processing ∧ e2.processedAt = some now) ∧
    (∀ steps : List (Nat × Nat),
      List.Pairwise (fun s t => ∀ i ∈ s, i ∉ t) (leaseSelections steps q)) := by
  refine ⟨fun e he => lease_sel_spec he, ?_, ?_⟩
  · intro e he
    have heq := (lease_sel_spec he).1
    have hcontains : ((get_next_from_queue limit now q).1.map (·.id)).contains e.id
        = true := by
      have hm : e.id ∈ (get_next_from_queue limit now q).1.map (·.id) :=
        List.mem_map_of_mem _ he
      simpa using hm
    rw [lease_snd_eq]
    exact ⟨{ e with status := QStatus.processing, processedAt := some now },
      List.mem_map.mpr ⟨e, heq, by rw [if_pos hcontains]⟩, rfl, rfl, rfl⟩
  · intro steps
    exact lease_selections_pairwise_disjoint steps q hnodup

/-- Witness for C1 at a concrete two-row queue and two lease steps. -/
theorem c1_witness :
    List.Pairwise (fun s t => ∀ i ∈ s, i ∉ t)
      (leaseSelections [(1, 100), (1, 101)]
        [{ id := 1, url := "http://a.com", domainName := "a.com", sourceDomainId := none,
           depth := 0, priority := 1, discoveredAt := 0, processedAt := none,
           errorMessage := none, status := QStatus.pending },
         { id := 2, url := "http://b.com", domainName := "b.com", sourceDomainId := none,
           depth := 0, priority := 1, discoveredAt := 1, processedAt := none,
           errorMessage := none, status := QStatus.pending }]) :=
  (c1_lease_batch_mutual_exclusion 1 100 _ (by decide)).2.2 [(1, 100), (1, 101)]

/-- Counterexample for C2: on a kept link from `a.com` to `b.com` whose HEAD
probe 301s to `c.com`, the code records the redirect edge and then the
nominal edge with the MUTATED `rel_type` — both rows carry `'redirect'`,
and no `(a.com, b.com, 'link')` row exists, contradicting the claim. -/
theorem c2_counterexample :
    relationshipsForLink "a.com" "b.com" "http://b.com" "b" false
        (some (301, "http://c.com")) =
      [⟨"a.com", "c.com", "redirect", "b", "http://b.com"⟩,
       ⟨"a.com", "b.com", "redirect", "b", "http://b.com"⟩] ∧
    ⟨"a.com", "b.com", "link", "b", "http://b.com"⟩ ∉
      relationshipsForLink "a.com" "b.com" "http://b.com" "b" false
        (some (301, "http://c.com")) := by
  decide

/-- Claim C2 (amended): when the HEAD probe ends in 3xx on a final host differing
from the target and the change is not solely an http-to-https switch on
the same host, two rows are recorded — but BOTH with label `'redirect'`:
first the extra edge to the final host, then the nominal edge to the
target domain.  No `'link'`-labelled row is written for such a link. -/
theorem c2_redirect_edges_amended (domainName targetDomain href linkText : String)
    (status : Nat) (finalUrl : String)
    (hhash : startsWithHash href.data = false)
    (hmailto : startsWithMailto href.data = false)
    (hcond : 300 ≤ status ∧ status < 400 ∧
      (⟨hostOf finalUrl.data⟩ : String) ≠ "" ∧
      (⟨hostOf finalUrl.data⟩ : String) ≠ targetDomain ∧
      (((⟨hostOf finalUrl.data⟩ : String) == (⟨hostOf href.data⟩ : String)) &&
        !(schemeOf href.data == schemeOf finalUrl.data)) = false) :
    relationshipsForLink domainName targetDomain href linkText false
        (some (status, finalUrl)) =
      [⟨domainName, ⟨hostOf finalUrl.data⟩, "redirect", linkText, href⟩,
       ⟨domainName, targetDomain, "redirect", linkText, href⟩] := by
  unfold relationshipsForLink
  rw [if_neg (by simp)]
  rw [hhash, hmailto]
  rw [if_neg (by simp)]
  simp only
  rw [if_pos hcond]

/-- Witness for C2 at the concrete 301 example. -/
theorem c2_witness :
    relationshipsForLink "a.com" "b.com" "https://b.com/p" "text" false
        (some (302, "https://www.C.com/q"))  =
      [⟨"a.com", "c.com", "redirect", "text", "https://b.com/p"⟩,
       ⟨"a.com", "b.com", "redirect", "text", "https://b.com/p"⟩] := by
  have h := c2_redirect_edges_amended "a.com" "b.com" "https://b.com/p" "text"
    302 "https://www.C.com/q" (by decide) (by decide) (by decide)
  exact h

/-- Counterexample for C3: on a length tie between a disallow and an allow
rule the code lets the FIRST rule win, not allow; and an empty `allow`
value is treated as `'/'` (length 1), not as the empty prefix the
specification's brute force would use — both give decisions opposite to
the specification's reference. -/
theorem c3_counterexample :
    findRobotsDecision "/a".data
        [(RuleType.disallow, "/a".data), (RuleType.allow, "/a".data)] = false ∧
    specRobotsDecision "/a".data
        [(RuleType.disallow, "/a".data), (RuleType.allow, "/a".data)] = true ∧
    findRobotsDecision "/x".data
        [(RuleType.allow, "".data), (RuleType.disallow, "/".data)] = true ∧
    specRobotsDecision "/x".data
        [(RuleType.allow, "".data), (RuleType.disallow, "/".data)] = false := by
  decide

/-- Claim C3 (amended): for every rule list and path, the decision of
`_find_robots_decision` equals the brute-force reference in which an empty
value (allow or disallow) means `'/'`, a value without a leading `'/'` is
matched as if prefixed by one (while ranked by its original length), the
longest matching value wins, and a tie at the maximal length goes to the
EARLIEST rule in the list (user-agent-specific rules precede `*` rules in
`_check_robots_txt`'s ordering), not to allow. -/
theorem c3_robots_longest_match_amended (path : List Char)
    (rules : List (RuleType × List Char)) :
    findRobotsDecision path rules = bruteRobotsDecision path rules :=
  findRobotsDecision_eq_brute path rules

/-- Claim C4: enqueueing a URL already present leaves exactly one row for it,
with priority raised to the max, depth lowered to the min, and every other
column — including `status` — unchanged; enqueueing a fresh URL appends a
`'pending'` row with the given priority and depth.  The hypothesis is the
table's unique key on `url`. -/
theorem c4_enqueue_upsert (url domainName : String) (sourceDomainId : Option Nat)
    (depth priority : Int) (newId now : Nat) (q : List QEntry)
    (hnodup : (q.map (·.url)).Nodup) :
    (∀ e0 ∈ q, e0.url = url →
      (add_to_discovery_queue url domainName sourceDomainId depth priority
          newId now q).filter (fun e => e.url == url) =
        [{ e0 with priority := max e0.priority priority, depth := min e0.depth depth }]) ∧
    ((∀ e ∈ q, e.url ≠ url) →
      add_to_discovery_queue url domainName sourceDomainId depth priority
          newId now q =
        q ++ [{ id := newId, url := url, domainName := domainName,
                sourceDomainId := sourceDomainId, depth := depth,
                priority := priority, discoveredAt := now, processedAt := none,
                errorMessage := none, status := QStatus.pending }]) := by
  constructor
  · intro e0 he0 hurl
    unfold add_to_discovery_queue
    rw [if_pos (List.any_eq_true.mpr ⟨e0, he0, by simp [hurl]⟩)]
    exact upsert_filter priority depth q hnodup e0 he0 hurl
  · intro h
    unfold add_to_discovery_queue
    rw [if_neg (by
      simp only [List.any_eq_true, decide_eq_true_eq, not_exists]
      intro x hx
      exact h x hx.1 hx.2)]

/-- Witness for C4: re-enqueueing a completed row raises priority 1 to 2,
lowers depth 3 to 1, and leaves the status `'completed'`. -/
theorem c4_witness :
    (add_to_discovery_queue "http://a.com/x" "a.com" none 1 2 99 50
      [{ id := 7, url := "http://a.com/x", domainName := "a.com",
         sourceDomainId := none, depth := 3, priority := 1, discoveredAt := 0,
         processedAt := none, errorMessage := none,
         status := QStatus.completed }]).filter
        (fun e => e.url == "http://a.com/x") =
      [{ id := 7, url := "http://a.com/x", domainName := "a.com",
         sourceDomainId := none, depth := min 3 1, priority := max 1 2,
         discoveredAt := 0, processedAt := none, errorMessage := none,
         status := QStatus.completed }] :=
  (c4_enqueue_upsert "http://a.com/x" "a.com" none 1 2 99 50 _ (by decide)).1
    _ (List.mem_cons_self _ _) rfl

/-- Counterexample for C5: the canonicalizer neither lowercases the host nor
strips `www.`, and it strips the slash of the root path too — on
`http://WWW.Example.com/` it returns `http://WWW.Example.com`, while the
claim's description yields `http://example.com/`. -/
theorem c5_counterexample :
    cleanUrlForQueue "http://WWW.Example.com/" = "http://WWW.Example.com" ∧
    specCleanUrl "http://WWW.Example.com/".data = "http://example.com/".data ∧
    (cleanUrlForQueue "http://WWW.Example.com/").data ≠
      specCleanUrl "http://WWW.Example.com/".data := by
  decide

/-- Claim C5 (amended): for every well-formed URL
`scheme://host path ?query #fragment`, `_clean_url_for_queue` returns the
lowercased scheme plus `://` plus the host VERBATIM (no lowercasing, no
`www.` stripping) plus the path with query and fragment dropped and ALL
trailing slashes removed — the root path's slash included. -/
theorem c5_clean_url_amended (scheme host path query frag : List Char)
    (hs1 : scheme ≠ []) (hs2 : (scheme.headD ' ').isAlpha = true)
    (hs3 : scheme.all isSchemeChar = true)
    (hh1 : host ≠ []) (hh2 : ∀ c ∈ host, isNetlocEnd c = false)
    (hp1 : ∀ c ∈ path, c ≠ '#' ∧ c ≠ '?') (hp2 : path = [] ∨ path.headD ' ' = '/')
    (hq : ∀ c ∈ query, c ≠ '#') :
    cleanUrlCore (assembleUrl scheme host path query frag) =
      scheme.map Char.toLower ++ ':' :: '/' :: '/' :: (host ++ rstripSlashes path) :=
  cleanUrlCore_assembled scheme host path query frag hs1 hs2 hs3 hh1 hh2 hp1 hp2 hq

/-- Witness for C5 at `HTTP://WWW.Example.com/?q=1#f`. -/
theorem c5_witness :
    cleanUrlCore (assembleUrl "HTTP".data "WWW.Example.com".data "/".data
        "q=1".data "f".data) =
      "HTTP".data.map Char.toLower ++ ':' :: '/' :: '/' ::
        ("WWW.Example.com".data ++ rstripSlashes "/".data) :=
  c5_clean_url_amended "HTTP".data "WWW.Example.com".data "/".data "q=1".data "f".data
    (by decide) (by decide) (by decide) (by decide) (by decide) (by decide)
    (by decide) (by decide)

/-- Counterexample for C6: `mark_queue_item_completed`'s `UPDATE` has no status
guard in its `WHERE` clause — invoked on a row already in the terminal
state `'skipped'`, it overwrites the status with `'completed'`, so the
operations are not no-ops outside the caller's status set. -/
theorem c6_counterexample :
    ((mark_queue_item_completed 1 true none 5
      [{ id := 1, url := "u", domainName := "d", sourceDomainId := none, depth := 0,
         priority := 1, discoveredAt := 0, processedAt := some 3,
         errorMessage := none, status := QStatus.skipped }]).map (·.status)) =
      [QStatus.completed] ∧ QStatus.completed ≠ QStatus.skipped := by
  decide

/-- Claim C6 (amended): the three transitions match on the row id alone and fire
unconditionally: whatever the row's current status — terminal or not —
`complete` sets `completed`/`failed`, `skip` sets `skipped`, `interrupt`
sets `pending`; rows with other ids are untouched. -/
theorem c6_marks_unconditional (queueId : Nat) (success : Bool)
    (err reason reason2 : Option String) (now : Nat) (q : List QEntry) :
    ((mark_queue_item_completed queueId success err now q).map (·.status) =
      q.map (fun e => if e.id = queueId then
        (if success then QStatus.completed else QStatus.failed) else e.status)) ∧
    ((mark_queue_item_skipped queueId reason now q).map (·.status) =
      q.map (fun e => if e.id = queueId then QStatus.skipped else e.status)) ∧
    ((mark_queue_item_interrupted queueId reason2 q).map (·.status) =
      q.map (fun e => if e.id = queueId then QStatus.pending else e.status)) := by
  refine ⟨?_, ?_, ?_⟩ <;>
  · simp only [mark_queue_item_completed, mark_queue_item_skipped,
      mark_queue_item_interrupted, List.map_map]
    apply List.map_congr_left
    intro e _
    by_cases h : e.id = queueId
    · simp [h]
    · simp [h]

/-- Counterexample for C7: `process_queue` skips when `depth >= max_depth`
(domain_collector.py:1297), so an entry whose depth EQUALS `max_depth` is
skipped with "Max depth reached" — the claim says such an entry is
processed because the skip requires `depth > maxDepth`. -/
theorem c7_counterexample :
    processQueueItemOutcome 3 10 3 false 0 (Except.ok ()) =
      ItemOutcome.skipped "Max depth reached" ∧ ¬((3 : Int) > 3) := by
  decide

/-- Claim C7 (amended): in `process_queue` an entry is skipped with reason
"Max depth reached" iff `maxDepth ≤ depth` (equality included); every skip
carries one of the three policy reasons (depth, duplicate, cap) — policy
rejections never yield `'failed'`; a failure arises only from a raised
exception; a robots denial returns normally and the entry completes; and
in `parallel_collector.process_batch` a depth rejection performs NO status
update at all — the leased row simply stays `'processing'`. -/
theorem c7_skip_semantics_amended (maxDepth : Int) (maxUrlsPerDomain : Nat)
    (depth : Int) (inQ : Bool) (cnt : Nat) (rest : Except String Unit)
    (item : QEntry) (now : Nat) (q : List QEntry) :
    (processQueueItemOutcome maxDepth maxUrlsPerDomain depth inQ cnt rest =
        ItemOutcome.skipped "Max depth reached" ↔ maxDepth ≤ depth) ∧
    (∀ r, processQueueItemOutcome maxDepth maxUrlsPerDomain depth inQ cnt rest =
        ItemOutcome.skipped r →
      r = "Max depth reached" ∨ r = "Already in queue" ∨
        r = "Domain processing limit reached") ∧
    (∀ e, processQueueItemOutcome maxDepth maxUrlsPerDomain depth inQ cnt rest =
        ItemOutcome.failedErr e → rest = Except.error e) ∧
    (¬maxDepth ≤ depth → inQ = false → cnt < maxUrlsPerDomain →
      processQueueItemOutcome maxDepth maxUrlsPerDomain depth inQ cnt
        (collectDomainData false rest) = ItemOutcome.completedOk) ∧
    (maxDepth < item.depth → processBatchItem maxDepth item rest now q = q) := by
  unfold processQueueItemOutcome
  refine ⟨?_, ?_, ?_, ?_, ?_⟩
  · by_cases h1 : maxDepth ≤ depth
    · rw [if_pos h1]
      exact ⟨fun _ => h1, fun _ => rfl⟩
    · rw [if_neg h1]
      constructor
      · intro hcon
        exfalso
        by_cases h2 : inQ = true
        · rw [if_pos h2] at hcon
          simp at hcon
        · rw [if_neg h2] at hcon
          by_cases h3 : maxUrlsPerDomain ≤ cnt
          · rw [if_pos h3] at hcon
            simp at hcon
          · rw [if_neg h3] at hcon
            cases rest <;> simp at hcon
      · intro h
        exact absurd h h1
  · intro r hr
    by_cases h1 : maxDepth ≤ depth
    · rw [if_pos h1] at hr
      left
      simp only [ItemOutcome.skipped.injEq] at hr
      exact hr.symm
    · rw [if_neg h1] at hr
      by_cases h2 : inQ = true
      · rw [if_pos h2] at hr
        right; left
        simp only [ItemOutcome.skipped.injEq] at hr
        exact hr.symm
      · rw [if_neg h2] at hr
        by_cases h3 : maxUrlsPerDomain ≤ cnt
        · rw [if_pos h3] at hr
          right; right
          simp only [ItemOutcome.skipped.injEq] at hr
          exact hr.symm
        · rw [if_neg h3] at hr
          cases rest <;> simp at hr
  · intro e he
    by_cases h1 : maxDepth ≤ depth
    · rw [if_pos h1] at he
      simp at he
    · rw [if_neg h1] at he
      by_cases h2 : inQ = true
      · rw [if_pos h2] at he
        simp at he
      · rw [if_neg h2] at he
        by_cases h3 : maxUrlsPerDomain ≤ cnt
        · rw [if_pos h3] at he
          simp at he
        · rw [if_neg h3] at he
          cases hrest : rest with
          | ok u => rw [hrest] at he; simp at he
          | error e2 =>
              rw [hrest] at he
              simp only [ItemOutcome.failedErr.injEq] at he
              rw [he]
  · intro h1 h2 h3
    rw [if_neg h1, h2, if_neg (by simp), if_neg (by omega)]
    rfl
  · intro h
    unfold processBatchItem
    rw [if_pos h]

/-- Witness for C7: depth below the limit, robots denied, no other error —
the entry completes. -/
theorem c7_witness :
    processQueueItemOutcome 3 10 1 false 0 (collectDomainData false (Except.ok ())) =
      ItemOutcome.completedOk :=
  (c7_skip_semantics_amended 3 10 1 false 0 (Except.ok ())
    { id := 1, url := "u", domainName := "d", sourceDomainId := none, depth := 0,
      priority := 1, discoveredAt := 0, processedAt := none, errorMessage := none,
      status := QStatus.processing } 0 []).2.2.2.1 (by decide) rfl (by decide)

/-- Counterexample for C8: with `max_links_per_page = 0` the internal budget is
`max(1, 0) = 1`, so one internal link is kept and enqueued — the claimed
total bound `≤ maxLinksPerPage = 0` fails. -/
theorem c8_counterexample :
    (keptLinks 0 10 (fun _ => 0) [⟨"http://a.com/x", "text", "a.com"⟩] []).length = 1 ∧
    ¬((1 : Nat) ≤ 0) := by
  decide

/-- Claim C8 (amended): provided `maxLinksPerPage ≥ 1`, a single page processing
keeps and enqueues at most `maxLinksPerPage` links in total; the internal
links are deduplicated by canonical URL and number at most
`internalBudget = max(1, maxLinksPerPage / 4) ≤ ⌈maxLinksPerPage/4⌉`; the
external links are deduplicated by target host and number at most
`maxLinksPerPage − internalBudget`. -/
theorem c8_fanout_bound_amended (maxLinks cap : Nat) (cnt : String → Nat)
    (internal external : List Link) (hml : 1 ≤ maxLinks) :
    (keptLinks maxLinks cap cnt internal external).length ≤ maxLinks ∧
    (internalKept (internalBudget maxLinks) cap cnt internal [] 0).length ≤
      internalBudget maxLinks ∧
    internalBudget maxLinks ≤ (maxLinks + 3) / 4 ∧
    (externalKept (externalBudget maxLinks) cap cnt external [] 0).length ≤
      maxLinks - internalBudget maxLinks ∧
    ((internalKept (internalBudget maxLinks) cap cnt internal [] 0).map
      (fun l => cleanUrlForQueue l.href)).Nodup ∧
    ((externalKept (externalBudget maxLinks) cap cnt external [] 0).map
      (·.domain)).Nodup := by
  have hint := internalKept_length (internalBudget maxLinks) cap cnt internal [] 0
  have hext := externalKept_length (externalBudget maxLinks) cap cnt external [] 0
  have h1 : (internalKept (internalBudget maxLinks) cap cnt internal [] 0).length ≤
      internalBudget maxLinks := by simpa using hint
  have h2 : (externalKept (externalBudget maxLinks) cap cnt external [] 0).length ≤
      externalBudget maxLinks := by simpa using hext
  have heb : externalBudget maxLinks = maxLinks - internalBudget maxLinks := rfl
  have hbudget : internalBudget maxLinks ≤ maxLinks := by
    show Nat.max 1 (maxLinks / 4) ≤ maxLinks
    rw [Nat.max_eq_max, Nat.max_def]
    split
    · exact Nat.div_le_self _ _
    · exact hml
  refine ⟨?_, h1, ?_, ?_, ?_, ?_⟩
  · unfold keptLinks
    rw [List.length_append]
    omega
  · show Nat.max 1 (maxLinks / 4) ≤ (maxLinks + 3) / 4
    rw [Nat.max_eq_max, Nat.max_def]
    split
    · exact Nat.div_le_div_right (by omega)
    · rw [Nat.le_div_iff_mul_le (by omega)]
      omega
  · exact le_trans h2 (le_of_eq heb)
  · exact (internalKept_nodup (internalBudget maxLinks) cap cnt internal [] 0).1
  · exact (externalKept_nodup (externalBudget maxLinks) cap cnt external [] 0).1

/-- Witness for C8 at `maxLinksPerPage = 10` with a duplicate internal URL
and a duplicate external host. -/
theorem c8_witness :
    (keptLinks 10 10 (fun _ => 0)
      [⟨"http://a.com/x", "t", "a.com"⟩, ⟨"http://a.com/x/", "t", "a.com"⟩]
      [⟨"http://b.com/1", "t", "b.com"⟩, ⟨"http://b.com/2", "t", "b.com"⟩]).length ≤ 10 :=
  (c8_fanout_bound_amended 10 10 (fun _ => 0)
    [⟨"http://a.com/x", "t", "a.com"⟩, ⟨"http://a.com/x/", "t", "a.com"⟩]
    [⟨"http://b.com/1", "t", "b.com"⟩, ⟨"http://b.com/2", "t", "b.com"⟩]
    (by decide)).1

/-- Counterexample for C9: canonicalization is NOT idempotent on URLs without a
scheme — for the protocol-relative href `//b.com/x` (which reaches
`_clean_url_for_queue` as links are filtered only for a nonempty netloc),
one application yields `://b.com/x` and a second yields `://://b.com/x`. -/
theorem c9_counterexample :
    cleanUrlForQueue "//b.com/x" = "://b.com/x" ∧
    cleanUrlForQueue (cleanUrlForQueue "//b.com/x") = "://://b.com/x" ∧
    cleanUrlForQueue (cleanUrlForQueue "//b.com/x") ≠ cleanUrlForQueue "//b.com/x" := by
  decide

/-- Claim C9 (amended): the canonicalizer is idempotent on every URL whose
`urlparse` scheme is nonempty — `canon(canon(u)) = canon(u)` for all `u`
with a scheme. -/
theorem c9_canon_idempotent_amended (u : String)
    (h : (splitScheme u.data).1 ≠ []) :
    cleanUrlForQueue (cleanUrlForQueue u) = cleanUrlForQueue u := by
  have hcore := @cleanUrlCore_idem u.data h
  unfold cleanUrlForQueue
  exact congrArg String.mk hcore

/-- Witness for C9 at `HTTP://WWW.Example.com/x/`. -/
theorem c9_witness :
    cleanUrlForQueue (cleanUrlForQueue "HTTP://WWW.Example.com/x/") =
      cleanUrlForQueue "HTTP://WWW.Example.com/x/" :=
  c9_canon_idempotent_amended "HTTP://WWW.Example.com/x/" (by decide)

/-- Claim C10: every fallible read-only check returns its neutral default when
the database raises: `is_url_in_queue` and `is_url_already_processed`
return `False`, `get_domain_processing_count` returns `0`, and
`get_queue_stats` returns the empty map — so duplicate suppression and the
per-domain cap behave as if the URL were unqueued and the domain under its
cap. -/
theorem c10_read_checks_fail_open (e : String) (url domainName : String)
    (excludeId : Option Nat) :
    is_url_in_queue url excludeId (Except.error e) = false ∧
    is_url_already_processed url (Except.error e) = false ∧
    get_domain_processing_count domainName (Except.error e) = 0 ∧
    get_queue_stats (Except.error e) = [] :=
  ⟨rfl, rfl, rfl, rfl⟩

/-- Witness for C10 at a concrete error and inputs. -/
theorem c10_witness :
    is_url_in_queue "http://a.com" (some 3) (Except.error "lost connection") = false ∧
    is_url_already_processed "http://a.com" (Except.error "lost connection") = false ∧
    get_domain_processing_count "a.com" (Except.error "lost connection") = 0 ∧
    get_queue_stats (Except.error "lost connection") = [] :=
  c10_read_checks_fail_open "lost connection" "http://a.com" "a.com" (some 3)

end Crawler
